import Mathlib

/-!
# Verification of the mempool core of `src/txmempool.cpp`

Shallow embedding of the unconfirmed-transaction pool and fee-estimator
persistence layer of `src/txmempool.cpp`.

Modelling conventions:
* `std::map` is embedded as an association list with insert-or-replace
  (`minsert`) and erase (`merase`); reachable pool states keep their key
  lists duplicate-free, mirroring `std::map` key uniqueness.
* The spend index `mapNextTx` stores, instead of the C++ raw pointer
  `CInPoint::ptx`, the owning transaction's hash together with the input
  index; all uses of the pointer in the source (`ptx->GetHash()`,
  dereference to the owning transaction) go through this key.
* `double` quantities (priorities, the rolling fee floor) are embedded as
  rational numbers; `CAmount`/`int64_t` as `Int`; `unsigned int` height
  arithmetic wraps modulo `2 ^ 32` exactly where the source subtracts
  unsigned values.
* Fallible stream reads return `Option` (`none` models a thrown
  deserialization or sanity exception).
-/

/-- Transaction identifier (`uint256` hash), abstracted to `Nat`. -/
abbrev Hash := Nat

/-- `COutPoint`: a reference to output `n` of the transaction `hash`. -/
structure OutPoint where
  hash : Hash
  n : Nat
deriving DecidableEq, Repr

/-- `CTxIn`: one transaction input; only the spent outpoint is relevant here. -/
structure TxIn where
  prevout : OutPoint
deriving DecidableEq, Repr

/-- `CTxOut`: one transaction output; `isNull` abstracts `CTxOut::IsNull()`. -/
structure TxOut where
  nValue : Int
  isNull : Bool
deriving DecidableEq, Repr

/-- `CTransaction`: `hash` models the cached `GetHash()` value. -/
structure Transaction where
  hash : Hash
  vin : List TxIn
  vout : List TxOut
deriving DecidableEq, Repr

/-- `CTransaction::GetValueOut()`: the sum of all output values. -/
def Transaction.GetValueOut (tx : Transaction) : Int :=
  (tx.vout.map (·.nValue)).sum

/-- Sentinel height marking an unconfirmed (pool-resident) coin record. -/
def MEMPOOL_HEIGHT : Nat := 0x7FFFFFFF

/-- `CTxMemPoolEntry`: one pool entry, exactly the fields of the source class. -/
structure CTxMemPoolEntry where
  tx : Transaction
  nFee : Int
  nTxSize : Nat
  nModSize : Nat
  nTime : Int
  dPriority : ℚ
  nHeight : Nat
  hadNoDependencies : Bool
deriving DecidableEq, Repr

/-- `CTxMemPoolEntry::GetPriority(currentHeight)`:
`dPriority + ((double)(currentHeight - nHeight) * nValueIn) / nModSize` with
`nValueIn = tx.GetValueOut() + nFee`; the height subtraction is `unsigned int`
arithmetic, embedded as subtraction modulo `2 ^ 32`. -/
def CTxMemPoolEntry.GetPriority (e : CTxMemPoolEntry) (currentHeight : Nat) : ℚ :=
  let nValueIn : Int := e.tx.GetValueOut + e.nFee
  let deltaPriority : ℚ :=
    (((currentHeight + 2 ^ 32 - e.nHeight) % 2 ^ 32 : Nat) : ℚ) * (nValueIn : ℚ) / (e.nModSize : ℚ)
  e.dPriority + deltaPriority

/-! ## Association-list maps (embedding of `std::map`) -/

section MapOps

variable {K V : Type} [DecidableEq K]

/-- `std::map::find` / `count`: first binding of key `k`, if any. -/
def mlookup : List (K × V) → K → Option V
  | [], _ => none
  | (k', v) :: rest, k => if k' = k then some v else mlookup rest k

/-- `std::map::operator[] =`: insert-or-replace the binding of `k`. -/
def minsert (m : List (K × V)) (k : K) (v : V) : List (K × V) :=
  (k, v) :: m.filter (fun p => p.1 ≠ k)

/-- `std::map::erase`: drop every binding of `k`. -/
def merase (m : List (K × V)) (k : K) : List (K × V) :=
  m.filter (fun p => p.1 ≠ k)

/-- The key list is duplicate-free (always true of a `std::map`). -/
def keysNodup (m : List (K × V)) : Prop :=
  (m.map Prod.fst).Nodup

theorem mlookup_eq_none_iff {m : List (K × V)} {k : K} :
    mlookup m k = none ↔ ∀ p ∈ m, p.1 ≠ k := by
  induction m with
  | nil => simp [mlookup]
  | cons hd tl ih =>
    obtain ⟨k1, v1⟩ := hd
    by_cases h : k1 = k
    · simp [mlookup, h]
    · simp only [mlookup, h, if_false, List.mem_cons, ih]
      constructor
      · intro hn p hp
        rcases hp with rfl | hp
        · exact h
        · exact hn p hp
      · intro hall p hp
        exact hall p (Or.inr hp)

theorem mem_of_mlookup {m : List (K × V)} {k : K} {v : V}
    (h : mlookup m k = some v) : (k, v) ∈ m := by
  induction m with
  | nil => simp [mlookup] at h
  | cons hd tl ih =>
    obtain ⟨k1, v1⟩ := hd
    by_cases hk : k1 = k
    · subst hk
      simp only [mlookup, if_true, if_pos rfl] at h
      cases h
      exact List.mem_cons_self _ _
    · simp only [mlookup, hk, if_false] at h
      exact List.mem_cons_of_mem _ (ih h)

theorem mlookup_filter_of_keep {m : List (K × V)} {k : K} {q : K × V → Bool}
    (hq : ∀ v, q (k, v) = true) :
    mlookup (m.filter q) k = mlookup m k := by
  induction m with
  | nil => simp [mlookup]
  | cons hd tl ih =>
    obtain ⟨k1, v1⟩ := hd
    by_cases hk : k1 = k
    · subst hk
      simp only [List.filter_cons, hq v1, mlookup, if_pos rfl]
      simp
    · by_cases hqh : q (k1, v1) = true
      · simp only [List.filter_cons, hqh, if_pos, mlookup, hk, if_false]
        exact ih
      · simp only [List.filter_cons, hqh, Bool.false_eq_true, if_false, mlookup, hk]
        exact ih

theorem mlookup_minsert_self (m : List (K × V)) (k : K) (v : V) :
    mlookup (minsert m k v) k = some v := by
  simp [minsert, mlookup]

theorem mlookup_minsert_ne (m : List (K × V)) {k k' : K} (v : V) (h : k' ≠ k) :
    mlookup (minsert m k v) k' = mlookup m k' := by
  simp only [minsert, mlookup, if_neg (Ne.symm h)]
  exact mlookup_filter_of_keep (fun _ => by simp [h])

theorem mlookup_merase_self (m : List (K × V)) (k : K) :
    mlookup (merase m k) k = none := by
  rw [mlookup_eq_none_iff]
  intro p hp
  rcases List.mem_filter.mp hp with ⟨_, hne⟩
  simpa using hne

theorem mlookup_merase_ne (m : List (K × V)) {k k' : K} (h : k' ≠ k) :
    mlookup (merase m k) k' = mlookup m k' := by
  exact mlookup_filter_of_keep (fun _ => by simp [h])

theorem mlookup_merase_sub {m : List (K × V)} {k k' : K} {v : V}
    (h : mlookup (merase m k) k' = some v) : mlookup m k' = some v := by
  by_cases hk : k' = k
  · subst hk; rw [mlookup_merase_self] at h; cases h
  · rwa [mlookup_merase_ne m hk] at h

theorem keysNodup_cons {hd : K × V} {tl : List (K × V)} :
    keysNodup (hd :: tl) ↔ (∀ p ∈ tl, p.1 ≠ hd.1) ∧ keysNodup tl := by
  unfold keysNodup
  simp only [List.map_cons, List.nodup_cons, List.mem_map]
  constructor
  · rintro ⟨hnotin, hnd⟩
    refine ⟨?_, hnd⟩
    intro p hp hpk
    exact hnotin ⟨p, hp, hpk⟩
  · rintro ⟨hall, hnd⟩
    refine ⟨?_, hnd⟩
    rintro ⟨p, hp, hpk⟩
    exact hall p hp hpk

theorem keysNodup_filter {m : List (K × V)} (q : K × V → Bool)
    (h : keysNodup m) : keysNodup (m.filter q) := by
  unfold keysNodup at *
  exact ((m.filter_sublist (p := q)).map Prod.fst).nodup h

theorem keysNodup_minsert {m : List (K × V)} (k : K) (v : V)
    (h : keysNodup m) : keysNodup (minsert m k v) := by
  rw [minsert, keysNodup_cons]
  refine ⟨?_, keysNodup_filter _ h⟩
  intro p hp
  rcases List.mem_filter.mp hp with ⟨_, hne⟩
  simpa using hne

theorem keysNodup_merase {m : List (K × V)} (k : K)
    (h : keysNodup m) : keysNodup (merase m k) :=
  keysNodup_filter _ h

theorem filter_eq_self_of_mlookup_none {m : List (K × V)} {k : K}
    (h : mlookup m k = none) : m.filter (fun p => p.1 ≠ k) = m := by
  have hall : ∀ p ∈ m, p.1 ≠ k := mlookup_eq_none_iff.mp h
  clear h
  induction m with
  | nil => rfl
  | cons hd tl ih =>
    have hhd : (decide (hd.1 ≠ k)) = true := by
      simpa using hall hd (List.mem_cons_self _ _)
    rw [List.filter_cons, hhd]
    simp only [if_pos]
    exact congrArg (hd :: ·) (ih (fun p hp => hall p (List.mem_cons_of_mem _ hp)))

theorem merase_eq_self_of_mlookup_none {m : List (K × V)} {k : K}
    (h : mlookup m k = none) : merase m k = m :=
  filter_eq_self_of_mlookup_none h

theorem length_minsert_fresh {m : List (K × V)} {k : K} (v : V)
    (h : mlookup m k = none) : (minsert m k v).length = m.length + 1 := by
  unfold minsert
  rw [filter_eq_self_of_mlookup_none h]
  simp

theorem mlookup_none_of_keysNodup_head {k : K} {v : V} {tl : List (K × V)}
    (hn : keysNodup ((k, v) :: tl)) : mlookup tl k = none := by
  rw [mlookup_eq_none_iff]
  intro p hp
  exact (keysNodup_cons.mp hn).1 p hp

theorem length_merase_present {m : List (K × V)} {k : K} {v : V}
    (hn : keysNodup m) (h : mlookup m k = some v) :
    m.length = (merase m k).length + 1 := by
  induction m with
  | nil => simp [mlookup] at h
  | cons hd tl ih =>
    obtain ⟨k1, v1⟩ := hd
    have hn' : keysNodup tl := (keysNodup_cons.mp hn).2
    by_cases hk : k1 = k
    · subst hk
      have htl : merase tl k1 = tl :=
        merase_eq_self_of_mlookup_none (mlookup_none_of_keysNodup_head hn)
      have hdrop : merase ((k1, v1) :: tl) k1 = merase tl k1 := by
        simp [merase, List.filter_cons]
      rw [hdrop, htl]
      simp
    · simp only [mlookup, hk, if_false] at h
      have hkeep : merase ((k1, v1) :: tl) k = (k1, v1) :: merase tl k := by
        simp [merase, List.filter_cons, hk]
      rw [hkeep]
      simp only [List.length_cons]
      rw [ih hn' h]

theorem sum_map_merase_present {m : List (K × V)} {k : K} {v : V} (f : K × V → Nat)
    (hn : keysNodup m) (h : mlookup m k = some v) :
    (m.map f).sum = f (k, v) + ((merase m k).map f).sum := by
  induction m with
  | nil => simp [mlookup] at h
  | cons hd tl ih =>
    obtain ⟨k1, v1⟩ := hd
    have hn' : keysNodup tl := (keysNodup_cons.mp hn).2
    by_cases hk : k1 = k
    · subst hk
      have hv : v1 = v := by
        simpa [mlookup] using h
      subst hv
      have htl : merase tl k1 = tl :=
        merase_eq_self_of_mlookup_none (mlookup_none_of_keysNodup_head hn)
      have hdrop : merase ((k1, v1) :: tl) k1 = merase tl k1 := by
        simp [merase, List.filter_cons]
      rw [hdrop, htl]
      simp
    · simp only [mlookup, hk, if_false] at h
      have hstep : merase ((k1, v1) :: tl) k = (k1, v1) :: merase tl k := by
        simp [merase, List.filter_cons, hk]
      rw [hstep]
      simp only [List.map_cons, List.sum_cons]
      rw [ih hn' h]
      omega

end MapOps

/-! ## The mempool engine (`CTxMemPool`) -/

/-- One call into the fee/priority estimator (`CBlockPolicyEstimator`); the
pool records the calls it makes so that reporting behaviour is observable. -/
inductive EstEvent
  | processTx (entry : CTxMemPoolEntry) (fCurrentEstimate : Bool)
  | removeTx (hash : Hash)
  | processBlock (nBlockHeight : Nat) (entries : List CTxMemPoolEntry) (fCurrentEstimate : Bool)
deriving DecidableEq, Repr

/-- The mutable state of `CTxMemPool`: `mapTx`, the spend index `mapNextTx`
(valued in (owning transaction hash, input index), replacing `CInPoint`'s raw
pointer), the prioritisation map `mapDeltas`, the running size total, the
updated counter, and the trace of estimator calls. -/
structure CTxMemPool where
  mapTx : List (Hash × CTxMemPoolEntry)
  mapNextTx : List (OutPoint × (Hash × Nat))
  mapDeltas : List (Hash × (ℚ × Int))
  totalTxSize : Int
  nTransactionsUpdated : Nat
  events : List EstEvent
deriving DecidableEq, Repr

/-- A freshly constructed, empty pool. -/
def emptyPool : CTxMemPool :=
  { mapTx := [], mapNextTx := [], mapDeltas := [], totalTxSize := 0,
    nTransactionsUpdated := 0, events := [] }

/-- The indexing loop of `addUnchecked`:
`for i in 0..vin.size: mapNextTx[vin[i].prevout] = CInPoint(&tx, i)`. -/
def indexVin (h : Hash) : List TxIn → Nat → List (OutPoint × (Hash × Nat)) → List (OutPoint × (Hash × Nat))
  | [], _, m => m
  | txin :: rest, i, m => indexVin h rest (i + 1) (minsert m txin.prevout (h, i))

/-- The de-indexing loop of `remove`:
`BOOST_FOREACH(txin, tx.vin) mapNextTx.erase(txin.prevout)`. -/
def deindexVin (vin : List TxIn) (m : List (OutPoint × (Hash × Nat))) : List (OutPoint × (Hash × Nat)) :=
  vin.foldl (fun acc txin => merase acc txin.prevout) m

/-- `CTxMemPool::addUnchecked(hash, entry, fCurrentEstimate)`: store the entry,
index every input, bump the updated counter and size total, and report the
entry to the estimator.  (The C++ function also returns `true`.) -/
def CTxMemPool.addUnchecked (st : CTxMemPool) (hash : Hash) (entry : CTxMemPoolEntry)
    (fCurrentEstimate : Bool) : CTxMemPool :=
  { st with
    mapTx := minsert st.mapTx hash entry,
    mapNextTx := indexVin entry.tx.hash entry.tx.vin 0 st.mapNextTx,
    nTransactionsUpdated := st.nTransactionsUpdated + 1,
    totalTxSize := st.totalTxSize + (entry.nTxSize : Int),
    events := st.events ++ [EstEvent.processTx entry fCurrentEstimate] }

/-- `CTxMemPool::HasNoInputsOf(tx)`: no input spends a pool-resident tx. -/
def CTxMemPool.HasNoInputsOf (st : CTxMemPool) (tx : Transaction) : Bool :=
  tx.vin.all (fun txin => (mlookup st.mapTx txin.prevout.hash).isNone)

/-- The children the removal loop discovers for resident hash `h`:
`mapNextTx.find(COutPoint(hash, i))->second.ptx->GetHash()` for `i < nouts`. -/
def childrenOf (mapNextTx : List (OutPoint × (Hash × Nat))) (h : Hash) (nouts : Nat) : List Hash :=
  (List.range nouts).filterMap (fun i => (mlookup mapNextTx ⟨h, i⟩).map Prod.fst)

/-- The state mutation performed for one resident hash inside `remove`'s
worklist loop: erase the entry's inputs from the spend index, subtract its
size, erase the entry, bump the counter, and report `removeTx`. -/
def eraseTxStep (st : CTxMemPool) (h : Hash) (e : CTxMemPoolEntry) : CTxMemPool :=
  { st with
    mapNextTx := deindexVin e.tx.vin st.mapNextTx,
    totalTxSize := st.totalTxSize - (e.nTxSize : Int),
    mapTx := merase st.mapTx h,
    nTransactionsUpdated := st.nTransactionsUpdated + 1,
    events := st.events ++ [EstEvent.removeTx h] }

theorem length_merase_lt {m : List (Hash × CTxMemPoolEntry)} {h : Hash} {e : CTxMemPoolEntry}
    (hl : mlookup m h = some e) : (merase m h).length < m.length := by
  have hmem : (h, e) ∈ m := mem_of_mlookup hl
  unfold merase
  apply List.length_filter_lt_length_iff_exists.mpr
  exact ⟨(h, e), hmem, by simp⟩

/-- The worklist loop of `CTxMemPool::remove`: pop the front hash; skip it if
not resident; otherwise (when `fRecursive`) enqueue the spenders of its
outputs, then erase it, appending the transaction to the removed list. -/
def removeLoop (fRecursive : Bool) (st : CTxMemPool) (q : List Hash) (removed : List Transaction) :
    CTxMemPool × List Transaction :=
  match q with
  | [] => (st, removed)
  | h :: queue =>
    match hm : mlookup st.mapTx h with
    | none => removeLoop fRecursive st queue removed
    | some e =>
      let queue2 := queue ++ (if fRecursive then childrenOf st.mapNextTx h e.tx.vout.length else [])
      removeLoop fRecursive (eraseTxStep st h e) queue2 (removed ++ [e.tx])
termination_by (st.mapTx.length, q.length)
decreasing_by
  · exact Prod.Lex.right _ (Nat.lt_succ_self _)
  · exact Prod.Lex.left _ _ (length_merase_lt hm)

/-- `CTxMemPool::remove(origTx, removed, fRecursive)`: seed the worklist with
`origTx`'s hash and, when removing recursively a transaction that is not
itself resident, with the resident spenders of its would-be outputs; then run
the loop.  Returns the new state and the list of removed transactions. -/
def CTxMemPool.remove (st : CTxMemPool) (origTx : Transaction) (fRecursive : Bool) :
    CTxMemPool × List Transaction :=
  let queue0 :=
    if fRecursive && (mlookup st.mapTx origTx.hash).isNone then
      origTx.hash :: childrenOf st.mapNextTx origTx.hash origTx.vout.length
    else [origTx.hash]
  removeLoop fRecursive st queue0 []

/-- The body of `removeConflicts`' input loop, for one input `txin`: if the
spend index assigns `txin.prevout` to a transaction other than `tx`, remove
that transaction recursively.  The owning transaction is recovered from its
hash; the `none` fallback is unreachable in well-formed states (in C++ it
would be a dangling-pointer dereference). -/
def conflictStep (tx : Transaction) (acc : CTxMemPool × List Transaction) (txin : TxIn) :
    CTxMemPool × List Transaction :=
  match mlookup acc.1.mapNextTx txin.prevout with
  | none => acc
  | some (h, _) =>
    match mlookup acc.1.mapTx h with
    | none => acc
    | some e =>
      if e.tx ≠ tx then
        let r := CTxMemPool.remove acc.1 e.tx true
        (r.1, acc.2 ++ r.2)
      else acc

/-- `CTxMemPool::removeConflicts(tx, removed)`: run `conflictStep` over every
input of `tx`. -/
def CTxMemPool.removeConflicts (st : CTxMemPool) (tx : Transaction) :
    CTxMemPool × List Transaction :=
  tx.vin.foldl (conflictStep tx) (st, [])

/-- `CTxMemPool::ClearPrioritisation(hash)`. -/
def CTxMemPool.ClearPrioritisation (st : CTxMemPool) (hash : Hash) : CTxMemPool :=
  { st with mapDeltas := merase st.mapDeltas hash }

/-- The body of `removeForBlock`'s loop for one confirmed transaction:
non-recursive removal, conflict eviction, prioritisation clearing. -/
def blockStep (acc : CTxMemPool × List Transaction) (tx : Transaction) :
    CTxMemPool × List Transaction :=
  let r1 := CTxMemPool.remove acc.1 tx false
  let r2 := CTxMemPool.removeConflicts r1.1 tx
  (CTxMemPool.ClearPrioritisation r2.1 tx.hash, acc.2 ++ r2.2)

/-- `CTxMemPool::removeForBlock(vtx, nBlockHeight, conflicts, fCurrentEstimate)`:
capture the resident entries of the confirmed transactions, then for each
confirmed transaction remove it non-recursively, evict its conflicts and clear
its prioritisation; finally report the captured entries and the block height
to the estimator. -/
def CTxMemPool.removeForBlock (st : CTxMemPool) (vtx : List Transaction)
    (nBlockHeight : Nat) (fCurrentEstimate : Bool) : CTxMemPool × List Transaction :=
  let entries := vtx.filterMap (fun tx => mlookup st.mapTx tx.hash)
  let step := vtx.foldl blockStep (st, [])
  ({ step.1 with
      events := step.1.events ++ [EstEvent.processBlock nBlockHeight entries fCurrentEstimate] },
   step.2)

/-- `CTxMemPool::clear()`. -/
def CTxMemPool.clear (st : CTxMemPool) : CTxMemPool :=
  { st with mapTx := [], mapNextTx := [], totalTxSize := 0,
            nTransactionsUpdated := st.nTransactionsUpdated + 1 }

/-- `CTxMemPool::lookup(hash, result)`: the resident transaction, if any. -/
def CTxMemPool.lookup (st : CTxMemPool) (hash : Hash) : Option Transaction :=
  (mlookup st.mapTx hash).map (·.tx)

/-- `CTxMemPool::PrioritiseTransaction(hash, strHash, dPriorityDelta, nFeeDelta)`:
accumulate onto the (default-constructed if absent) delta pair. -/
def CTxMemPool.PrioritiseTransaction (st : CTxMemPool) (hash : Hash)
    (dPriorityDelta : ℚ) (nFeeDelta : Int) : CTxMemPool :=
  let deltas := (mlookup st.mapDeltas hash).getD (0, 0)
  { st with mapDeltas := minsert st.mapDeltas hash (deltas.1 + dPriorityDelta, deltas.2 + nFeeDelta) }

/-- `CTxMemPool::ApplyDeltas(hash, dPriorityDelta, nFeeDelta)`: add the stored
delta pair (if any) onto the caller-supplied base values. -/
def CTxMemPool.ApplyDeltas (st : CTxMemPool) (hash : Hash)
    (dPriorityDelta : ℚ) (nFeeDelta : Int) : ℚ × Int :=
  match mlookup st.mapDeltas hash with
  | none => (dPriorityDelta, nFeeDelta)
  | some deltas => (dPriorityDelta + deltas.1, nFeeDelta + deltas.2)

/-! ## Reachable pool states

The admission step carries the caller contract of `addUnchecked` stated by the
spec: full validation has already run, so none of the admitted transaction's
inputs conflicts with an existing pool entry.  Two consequences of validity
that the contract presupposes are recorded with it: a valid transaction has
pairwise-distinct inputs (`CheckTransaction` rejects duplicate inputs), and
distinct transactions have distinct hashes (collision-freeness of the
transaction hash), so the admitted hash is not already resident. -/
inductive Reachable : CTxMemPool → Prop
  | empty : Reachable emptyPool
  | accept (st : CTxMemPool) (entry : CTxMemPoolEntry) (fCur : Bool)
      (hr : Reachable st)
      (hfresh : mlookup st.mapTx entry.tx.hash = none)
      (hnodup : (entry.tx.vin.map (·.prevout)).Nodup)
      (hnoconf : ∀ txin ∈ entry.tx.vin, mlookup st.mapNextTx txin.prevout = none) :
      Reachable (CTxMemPool.addUnchecked st entry.tx.hash entry fCur)
  | rem (st : CTxMemPool) (tx : Transaction) (fRecursive : Bool) (hr : Reachable st) :
      Reachable (CTxMemPool.remove st tx fRecursive).1

/-- The pool-wide structural invariant tying `mapTx` and `mapNextTx` together:
keys are duplicate-free, every stored entry is keyed by its transaction's
hash, the spend index is sound (every record points at a resident transaction
that declares that outpoint at exactly that input index) and complete (every
input of every resident transaction is indexed), and the index size equals the
total input count of resident entries. -/
structure PoolInv (st : CTxMemPool) : Prop where
  nodupTx : keysNodup st.mapTx
  nodupNext : keysNodup st.mapNextTx
  keyOk : ∀ {h e}, mlookup st.mapTx h = some e → e.tx.hash = h
  sound : ∀ {op h i}, mlookup st.mapNextTx op = some (h, i) →
    ∃ e, mlookup st.mapTx h = some e ∧ ∃ txin, e.tx.vin[i]? = some txin ∧ txin.prevout = op
  complete : ∀ {h e}, mlookup st.mapTx h = some e →
    ∀ {i txin}, e.tx.vin[i]? = some txin → mlookup st.mapNextTx txin.prevout = some (h, i)
  sizeEq : st.mapNextTx.length = (st.mapTx.map (fun p => p.2.tx.vin.length)).sum

/-! ## Spend-index maintenance lemmas -/

theorem indexVin_lookup_old {h : Hash} {vin : List TxIn} {op : OutPoint}
    (hne : ∀ txin ∈ vin, txin.prevout ≠ op) :
    ∀ (i0 : Nat) (m : List (OutPoint × (Hash × Nat))),
    mlookup (indexVin h vin i0 m) op = mlookup m op := by
  induction vin with
  | nil => intro i0 m; rfl
  | cons txin rest ih =>
    intro i0 m
    have hstep : mlookup (minsert m txin.prevout (h, i0)) op = mlookup m op :=
      mlookup_minsert_ne m _ (fun heq => hne txin (List.mem_cons_self _ _) heq.symm)
    calc mlookup (indexVin h (txin :: rest) i0 m) op
        = mlookup (indexVin h rest (i0 + 1) (minsert m txin.prevout (h, i0))) op := rfl
      _ = mlookup (minsert m txin.prevout (h, i0)) op :=
          ih (fun t ht => hne t (List.mem_cons_of_mem _ ht)) _ _
      _ = mlookup m op := hstep

theorem indexVin_lookup_inv {h : Hash} {vin : List TxIn} {op : OutPoint} {v : Hash × Nat} :
    ∀ {i0 : Nat} {m : List (OutPoint × (Hash × Nat))},
    mlookup (indexVin h vin i0 m) op = some v →
    mlookup m op = some v ∨
      ∃ j txin, vin[j]? = some txin ∧ txin.prevout = op ∧ v = (h, i0 + j) := by
  induction vin with
  | nil => intro i0 m hl; exact Or.inl hl
  | cons txin rest ih =>
    intro i0 m hl
    rcases ih hl with hbase | ⟨j, txin', hj, hop, hv⟩
    · by_cases hk : op = txin.prevout
      · subst hk
        rw [mlookup_minsert_self] at hbase
        cases hbase
        exact Or.inr ⟨0, txin, by simp, rfl, by simp⟩
      · rw [mlookup_minsert_ne _ _ hk] at hbase
        exact Or.inl hbase
    · refine Or.inr ⟨j + 1, txin', by simpa using hj, hop, ?_⟩
      rw [hv]; congr 1; omega

theorem indexVin_lookup_at (h : Hash) {vin : List TxIn}
    (hnd : (vin.map (·.prevout)).Nodup) :
    ∀ (j : Nat) (txin : TxIn) (i0 : Nat) (m : List (OutPoint × (Hash × Nat))),
    vin[j]? = some txin →
    mlookup (indexVin h vin i0 m) txin.prevout = some (h, i0 + j) := by
  induction vin with
  | nil => intro j txin i0 m hj; simp at hj
  | cons txin0 rest ih =>
    intro j txin i0 m hj
    have hnd' : (rest.map (·.prevout)).Nodup := (List.nodup_cons.mp hnd).2
    match j with
    | 0 =>
      have hj0 : txin0 = txin := by simpa using hj
      subst hj0
      have hrest : ∀ t ∈ rest, t.prevout ≠ txin0.prevout := by
        intro t ht heq
        exact (List.nodup_cons.mp hnd).1 (List.mem_map.mpr ⟨t, ht, heq⟩)
      show mlookup (indexVin h rest (i0 + 1) (minsert m txin0.prevout (h, i0))) txin0.prevout
          = some (h, i0 + 0)
      rw [indexVin_lookup_old hrest, mlookup_minsert_self]
      simp
    | jj + 1 =>
      simp only [List.getElem?_cons_succ] at hj
      have := ih hnd' jj txin (i0 + 1) (minsert m txin0.prevout (h, i0)) hj
      show mlookup (indexVin h rest (i0 + 1) (minsert m txin0.prevout (h, i0))) txin.prevout
          = some (h, i0 + (jj + 1))
      rw [this]; congr 2; omega

theorem indexVin_keysNodup {h : Hash} {vin : List TxIn} :
    ∀ {i0 : Nat} {m : List (OutPoint × (Hash × Nat))},
    keysNodup m → keysNodup (indexVin h vin i0 m) := by
  induction vin with
  | nil => intro _ _ hm; exact hm
  | cons txin rest ih =>
    intro i0 m hm
    exact ih (keysNodup_minsert _ _ hm)

theorem indexVin_length {h : Hash} {vin : List TxIn}
    (hnd : (vin.map (·.prevout)).Nodup) :
    ∀ (i0 : Nat) (m : List (OutPoint × (Hash × Nat))),
    (∀ txin ∈ vin, mlookup m txin.prevout = none) →
    (indexVin h vin i0 m).length = m.length + vin.length := by
  induction vin with
  | nil => intro _ _ _; rfl
  | cons txin rest ih =>
    intro i0 m hfresh
    have hnd' : (rest.map (·.prevout)).Nodup := (List.nodup_cons.mp hnd).2
    have hfresh' : ∀ t ∈ rest, mlookup (minsert m txin.prevout (h, i0)) t.prevout = none := by
      intro t ht
      have hne : t.prevout ≠ txin.prevout := by
        intro heq
        exact (List.nodup_cons.mp hnd).1 (List.mem_map.mpr ⟨t, ht, heq⟩)
      rw [mlookup_minsert_ne _ _ hne]
      exact hfresh t (List.mem_cons_of_mem _ ht)
    have := ih hnd' (i0 + 1) (minsert m txin.prevout (h, i0)) hfresh'
    show (indexVin h rest (i0 + 1) (minsert m txin.prevout (h, i0))).length
        = m.length + (rest.length + 1)
    rw [this, length_minsert_fresh _ (hfresh txin (List.mem_cons_self _ _))]
    omega

theorem deindexVin_none_mono {vin : List TxIn} {op : OutPoint} :
    ∀ {m : List (OutPoint × (Hash × Nat))},
    mlookup m op = none → mlookup (deindexVin vin m) op = none := by
  induction vin with
  | nil => intro m hm; exact hm
  | cons txin rest ih =>
    intro m hm
    apply ih
    by_cases hk : op = txin.prevout
    · subst hk; exact mlookup_merase_self _ _
    · rw [mlookup_merase_ne _ hk]; exact hm

theorem deindexVin_lookup_mem {vin : List TxIn} {txin : TxIn} (hmem : txin ∈ vin) :
    ∀ (m : List (OutPoint × (Hash × Nat))),
    mlookup (deindexVin vin m) txin.prevout = none := by
  induction vin with
  | nil => cases hmem
  | cons txin0 rest ih =>
    intro m
    rcases List.mem_cons.mp hmem with rfl | hmem'
    · show mlookup (deindexVin rest (merase m txin.prevout)) txin.prevout = none
      exact deindexVin_none_mono (mlookup_merase_self _ _)
    · exact ih hmem' _

theorem deindexVin_lookup_notmem {vin : List TxIn} {op : OutPoint}
    (hne : ∀ txin ∈ vin, txin.prevout ≠ op) :
    ∀ (m : List (OutPoint × (Hash × Nat))),
    mlookup (deindexVin vin m) op = mlookup m op := by
  induction vin with
  | nil => intro m; rfl
  | cons txin rest ih =>
    intro m
    have : mlookup (merase m txin.prevout) op = mlookup m op :=
      mlookup_merase_ne m (fun heq => hne txin (List.mem_cons_self _ _) heq.symm)
    calc mlookup (deindexVin rest (merase m txin.prevout)) op
        = mlookup (merase m txin.prevout) op := ih (fun t ht => hne t (List.mem_cons_of_mem _ ht)) _
      _ = mlookup m op := this

theorem deindexVin_sub {vin : List TxIn} {op : OutPoint} {v : Hash × Nat} :
    ∀ {m : List (OutPoint × (Hash × Nat))},
    mlookup (deindexVin vin m) op = some v → mlookup m op = some v := by
  induction vin with
  | nil => intro m hm; exact hm
  | cons txin rest ih =>
    intro m hm
    exact mlookup_merase_sub (ih hm)

theorem deindexVin_keysNodup {vin : List TxIn} :
    ∀ {m : List (OutPoint × (Hash × Nat))},
    keysNodup m → keysNodup (deindexVin vin m) := by
  induction vin with
  | nil => intro _ hm; exact hm
  | cons txin rest ih =>
    intro m hm
    exact ih (keysNodup_merase _ hm)

theorem deindexVin_length {vin : List TxIn}
    (hnd : (vin.map (·.prevout)).Nodup) :
    ∀ {m : List (OutPoint × (Hash × Nat))}, keysNodup m →
    (∀ txin ∈ vin, ∃ v, mlookup m txin.prevout = some v) →
    m.length = (deindexVin vin m).length + vin.length := by
  induction vin with
  | nil => intro m _ _; rfl
  | cons txin rest ih =>
    intro m hn hall
    obtain ⟨v, hv⟩ := hall txin (List.mem_cons_self _ _)
    have hnd' : (rest.map (·.prevout)).Nodup := (List.nodup_cons.mp hnd).2
    have hall' : ∀ t ∈ rest, ∃ w, mlookup (merase m txin.prevout) t.prevout = some w := by
      intro t ht
      have hne : t.prevout ≠ txin.prevout := by
        intro heq
        exact (List.nodup_cons.mp hnd).1 (List.mem_map.mpr ⟨t, ht, heq⟩)
      rw [mlookup_merase_ne _ hne]
      exact hall t (List.mem_cons_of_mem _ ht)
    have hrec := ih hnd' (keysNodup_merase _ hn) hall'
    have hstep := length_merase_present hn hv
    show m.length = (deindexVin rest (merase m txin.prevout)).length + (rest.length + 1)
    omega

/-! ## Invariant preservation -/

theorem addUnchecked_mapTx (st : CTxMemPool) (h : Hash) (e : CTxMemPoolEntry) (f : Bool) :
    (CTxMemPool.addUnchecked st h e f).mapTx = minsert st.mapTx h e := rfl

theorem addUnchecked_mapNextTx (st : CTxMemPool) (h : Hash) (e : CTxMemPoolEntry) (f : Bool) :
    (CTxMemPool.addUnchecked st h e f).mapNextTx = indexVin e.tx.hash e.tx.vin 0 st.mapNextTx := rfl

theorem eraseTxStep_mapTx (st : CTxMemPool) (h : Hash) (e : CTxMemPoolEntry) :
    (eraseTxStep st h e).mapTx = merase st.mapTx h := rfl

theorem eraseTxStep_mapNextTx (st : CTxMemPool) (h : Hash) (e : CTxMemPoolEntry) :
    (eraseTxStep st h e).mapNextTx = deindexVin e.tx.vin st.mapNextTx := rfl

theorem inv_empty : PoolInv emptyPool := by
  refine ⟨List.nodup_nil, List.nodup_nil, ?_, ?_, ?_, rfl⟩
  · intro h e hl
    simp [emptyPool, mlookup] at hl
  · intro op h i hl
    simp [emptyPool, mlookup] at hl
  · intro h e hl
    simp [emptyPool, mlookup] at hl

/-- In a well-formed pool, the inputs of a resident transaction have
pairwise-distinct outpoints (two equal outpoints would be assigned the same
spend-index record at two different input indices). -/
theorem vin_prevouts_nodup {st : CTxMemPool} {h : Hash} {e : CTxMemPoolEntry}
    (hinv : PoolInv st) (hl : mlookup st.mapTx h = some e) :
    (e.tx.vin.map (·.prevout)).Nodup := by
  rw [List.nodup_iff_getElem?_ne_getElem?]
  intro i j hij hj hEq
  rw [List.getElem?_map, List.getElem?_map] at hEq
  have hj' : j < e.tx.vin.length := by simpa using hj
  have hi' : i < e.tx.vin.length := lt_trans hij hj'
  obtain ⟨ti, hti⟩ : ∃ ti, e.tx.vin[i]? = some ti := by
    rw [List.getElem?_eq_getElem hi']; exact ⟨_, rfl⟩
  obtain ⟨tj, htj⟩ : ∃ tj, e.tx.vin[j]? = some tj := by
    rw [List.getElem?_eq_getElem hj']; exact ⟨_, rfl⟩
  rw [hti, htj] at hEq
  have hpv : ti.prevout = tj.prevout := by simpa using hEq
  have h1 := hinv.complete hl hti
  have h2 := hinv.complete hl htj
  rw [hpv, h2] at h1
  have : i = j := by simpa using h1.symm
  omega

/-- In a well-formed pool, every input of a resident transaction has a
binding in the spend index. -/
theorem vin_prevouts_present {st : CTxMemPool} {h : Hash} {e : CTxMemPoolEntry}
    (hinv : PoolInv st) (hl : mlookup st.mapTx h = some e) :
    ∀ txin ∈ e.tx.vin, ∃ v, mlookup st.mapNextTx txin.prevout = some v := by
  intro txin hmem
  obtain ⟨i, hi, hgi⟩ := List.getElem_of_mem hmem
  have : e.tx.vin[i]? = some txin := by
    rw [List.getElem?_eq_getElem hi, hgi]
  exact ⟨(h, i), hinv.complete hl this⟩

theorem inv_addUnchecked {st : CTxMemPool} {entry : CTxMemPoolEntry} {fCur : Bool}
    (hinv : PoolInv st)
    (hfresh : mlookup st.mapTx entry.tx.hash = none)
    (hnodup : (entry.tx.vin.map (·.prevout)).Nodup)
    (hnoconf : ∀ txin ∈ entry.tx.vin, mlookup st.mapNextTx txin.prevout = none) :
    PoolInv (CTxMemPool.addUnchecked st entry.tx.hash entry fCur) := by
  have hcons : minsert st.mapTx entry.tx.hash entry = (entry.tx.hash, entry) :: st.mapTx := by
    unfold minsert
    rw [filter_eq_self_of_mlookup_none hfresh]
  constructor
  · exact keysNodup_minsert _ _ hinv.nodupTx
  · exact indexVin_keysNodup hinv.nodupNext
  · intro h e hl
    rw [addUnchecked_mapTx] at hl
    by_cases hk : h = entry.tx.hash
    · subst hk
      rw [mlookup_minsert_self] at hl
      cases hl; rfl
    · rw [mlookup_minsert_ne _ _ hk] at hl
      exact hinv.keyOk hl
  · intro op h i hl
    rw [addUnchecked_mapNextTx] at hl
    rcases indexVin_lookup_inv hl with hold | ⟨j, txin, hj, hop, hv⟩
    · obtain ⟨e, he, txin, hti, hpv⟩ := hinv.sound hold
      have hne : h ≠ entry.tx.hash := by
        intro hk
        rw [hk, hfresh] at he
        cases he
      exact ⟨e, by rw [addUnchecked_mapTx, mlookup_minsert_ne _ _ hne]; exact he,
        txin, hti, hpv⟩
    · obtain ⟨rfl, rfl⟩ : h = entry.tx.hash ∧ i = j := by
        constructor
        · exact congrArg Prod.fst hv
        · have := congrArg Prod.snd hv
          simpa using this
      refine ⟨entry, ?_, txin, hj, hop⟩
      rw [addUnchecked_mapTx]
      exact mlookup_minsert_self _ _ _
  · intro h e hl i txin hti
    rw [addUnchecked_mapTx] at hl
    by_cases hk : h = entry.tx.hash
    · subst hk
      rw [mlookup_minsert_self] at hl
      cases hl
      rw [addUnchecked_mapNextTx]
      have := indexVin_lookup_at entry.tx.hash hnodup i txin 0 st.mapNextTx hti
      simpa using this
    · rw [mlookup_minsert_ne _ _ hk] at hl
      have hold := hinv.complete hl hti
      have hne : ∀ t ∈ entry.tx.vin, t.prevout ≠ txin.prevout := by
        intro t ht heq
        have := hnoconf t ht
        rw [heq, hold] at this
        cases this
      rw [addUnchecked_mapNextTx, indexVin_lookup_old hne]
      exact hold
  · show (indexVin entry.tx.hash entry.tx.vin 0 st.mapNextTx).length
      = ((minsert st.mapTx entry.tx.hash entry).map (fun p => p.2.tx.vin.length)).sum
    rw [indexVin_length hnodup 0 st.mapNextTx hnoconf, hcons]
    simp only [List.map_cons, List.sum_cons]
    rw [hinv.sizeEq]
    omega

theorem inv_eraseTxStep {st : CTxMemPool} {h : Hash} {e : CTxMemPoolEntry}
    (hinv : PoolInv st) (hl : mlookup st.mapTx h = some e) :
    PoolInv (eraseTxStep st h e) := by
  have hnd := vin_prevouts_nodup hinv hl
  constructor
  · exact keysNodup_merase _ hinv.nodupTx
  · exact deindexVin_keysNodup hinv.nodupNext
  · intro h' e' hl'
    rw [eraseTxStep_mapTx] at hl'
    exact hinv.keyOk (mlookup_merase_sub hl')
  · intro op h' i hl'
    rw [eraseTxStep_mapNextTx] at hl'
    have hold := deindexVin_sub hl'
    obtain ⟨e', he', txin, hti, hpv⟩ := hinv.sound hold
    have hne : h' ≠ h := by
      intro hk
      subst hk
      rw [hl] at he'
      cases he'
      have hmem : txin ∈ e.tx.vin := by
        have hib : i < e.tx.vin.length := by
          by_contra hge
          rw [List.getElem?_eq_none (Nat.le_of_not_lt hge)] at hti
          cases hti
        have := List.getElem?_eq_getElem hib
        rw [this] at hti
        cases hti
        exact List.getElem_mem hib
      have := deindexVin_lookup_mem hmem st.mapNextTx
      rw [hpv] at this
      rw [this] at hl'
      cases hl'
    refine ⟨e', ?_, txin, hti, hpv⟩
    rw [eraseTxStep_mapTx, mlookup_merase_ne _ hne]
    exact he'
  · intro h' e' hl' i txin hti
    rw [eraseTxStep_mapTx] at hl'
    have hne : h' ≠ h := by
      intro hk
      subst hk
      rw [mlookup_merase_self] at hl'
      cases hl'
    have he' : mlookup st.mapTx h' = some e' := mlookup_merase_sub hl'
    have hold := hinv.complete he' hti
    have hkeep : ∀ t ∈ e.tx.vin, t.prevout ≠ txin.prevout := by
      intro t ht heq
      obtain ⟨j, hj, hgj⟩ := List.getElem_of_mem ht
      have htj : e.tx.vin[j]? = some t := by
        rw [List.getElem?_eq_getElem hj, hgj]
      have := hinv.complete hl htj
      rw [heq, hold] at this
      exact hne (congrArg Prod.fst (Option.some_inj.mp this))
    rw [eraseTxStep_mapNextTx, deindexVin_lookup_notmem hkeep]
    exact hold
  · show (deindexVin e.tx.vin st.mapNextTx).length
      = ((merase st.mapTx h).map (fun p => p.2.tx.vin.length)).sum
    have hpres := vin_prevouts_present hinv hl
    have hlen := deindexVin_length hnd hinv.nodupNext hpres
    have hsum := sum_map_merase_present (fun p => p.2.tx.vin.length) hinv.nodupTx hl
    have hf : (fun p => p.2.tx.vin.length) (h, e) = e.tx.vin.length := rfl
    rw [hf] at hsum
    have := hinv.sizeEq
    omega

/-! ## The removal worklist loop: unfolding equations and frame lemmas -/

theorem removeLoop_nil (f : Bool) (st : CTxMemPool) (rem : List Transaction) :
    removeLoop f st [] rem = (st, rem) := by
  rw [removeLoop.eq_def]

theorem removeLoop_cons_none (f : Bool) (st : CTxMemPool) (h : Hash) (queue : List Hash)
    (rem : List Transaction) (hm : mlookup st.mapTx h = none) :
    removeLoop f st (h :: queue) rem = removeLoop f st queue rem := by
  rw [removeLoop.eq_2]
  split
  · rfl
  · rename_i e heq
    simp [hm] at heq

theorem removeLoop_cons_some (f : Bool) (st : CTxMemPool) (h : Hash) (queue : List Hash)
    (rem : List Transaction) (e : CTxMemPoolEntry) (hm : mlookup st.mapTx h = some e) :
    removeLoop f st (h :: queue) rem =
      removeLoop f (eraseTxStep st h e)
        (queue ++ (if f then childrenOf st.mapNextTx h e.tx.vout.length else []))
        (rem ++ [e.tx]) := by
  rw [removeLoop.eq_2]
  split
  · rename_i heq
    simp [hm] at heq
  · rename_i e2 heq
    rw [hm] at heq
    cases heq
    rfl

/-- The worklist loop only ever erases: every surviving `mapTx` binding, and
every surviving spend-index binding, was already present, and `mapDeltas` is
untouched. -/
theorem removeLoop_frame (f : Bool) (st : CTxMemPool) (q : List Hash) (rem : List Transaction) :
    (∀ {h e}, mlookup (removeLoop f st q rem).1.mapTx h = some e → mlookup st.mapTx h = some e)
    ∧ (∀ {op v}, mlookup (removeLoop f st q rem).1.mapNextTx op = some v →
        mlookup st.mapNextTx op = some v)
    ∧ (removeLoop f st q rem).1.mapDeltas = st.mapDeltas := by
  refine removeLoop.induct f (motive := fun s w r =>
      (∀ {h e}, mlookup (removeLoop f s w r).1.mapTx h = some e → mlookup s.mapTx h = some e)
      ∧ (∀ {op v}, mlookup (removeLoop f s w r).1.mapNextTx op = some v →
          mlookup s.mapNextTx op = some v)
      ∧ (removeLoop f s w r).1.mapDeltas = s.mapDeltas)
    ?_ ?_ ?_ st q rem
  · intro s r
    rw [removeLoop_nil]
    exact ⟨fun hl => hl, fun hl => hl, rfl⟩
  · intro s r h queue hm ih
    rw [removeLoop_cons_none f s h queue r hm]
    exact ih
  · intro s r h queue e hm queue2 ih
    rw [removeLoop_cons_some f s h queue r e hm]
    refine ⟨?_, ?_, ?_⟩
    · intro h2 e2 hl
      exact mlookup_merase_sub (ih.1 hl)
    · intro op v hl
      exact deindexVin_sub (ih.2.1 hl)
    · exact ih.2.2

/-- The worklist loop preserves the pool invariant. -/
theorem removeLoop_inv (f : Bool) (st : CTxMemPool) (q : List Hash) (rem : List Transaction)
    (hinv : PoolInv st) : PoolInv (removeLoop f st q rem).1 := by
  refine removeLoop.induct f (motive := fun s w r =>
      PoolInv s → PoolInv (removeLoop f s w r).1) ?_ ?_ ?_ st q rem hinv
  · intro s r hi
    rw [removeLoop_nil]
    exact hi
  · intro s r h queue hm ih hi
    rw [removeLoop_cons_none f s h queue r hm]
    exact ih hi
  · intro s r h queue e hm queue2 ih hi
    rw [removeLoop_cons_some f s h queue r e hm]
    exact ih (inv_eraseTxStep hi hm)

/-- `remove` preserves the pool invariant. -/
theorem inv_remove (st : CTxMemPool) (tx : Transaction) (f : Bool) (hinv : PoolInv st) :
    PoolInv (CTxMemPool.remove st tx f).1 :=
  removeLoop_inv f st _ [] hinv

/-- Every reachable pool state satisfies the pool invariant; in particular the
spend index is in lock-step with the entry map after any sequence of
(contract-respecting) admissions and removals. -/
theorem inv_of_reachable {st : CTxMemPool} (hr : Reachable st) : PoolInv st := by
  induction hr with
  | empty => exact inv_empty
  | accept st entry fCur hr hfresh hnodup hnoconf ih =>
    exact inv_addUnchecked ih hfresh hnodup hnoconf
  | rem st tx fRecursive hr ih =>
    exact inv_remove st tx fRecursive ih

/-- `remove` never adds entries: frame lemma lifted from the loop. -/
theorem remove_frame (st : CTxMemPool) (tx : Transaction) (f : Bool) :
    (∀ {h e}, mlookup (CTxMemPool.remove st tx f).1.mapTx h = some e → mlookup st.mapTx h = some e)
    ∧ (∀ {op v}, mlookup (CTxMemPool.remove st tx f).1.mapNextTx op = some v →
        mlookup st.mapNextTx op = some v)
    ∧ (CTxMemPool.remove st tx f).1.mapDeltas = st.mapDeltas :=
  removeLoop_frame f st _ []

/-! ## Exact characterization of recursive removal -/

/-- Hashes reachable from the worklist `q` in state `st`: the worklist itself,
plus (transitively) every transaction that the spend index records as spending
an output slot (below the output count) of a resident reachable transaction.
This is precisely the set of hashes the removal loop visits. -/
inductive ReachQ (st : CTxMemPool) (q : List Hash) : Hash → Prop
  | base {h} (hmem : h ∈ q) : ReachQ st q h
  | step {p e i h j} (hp : ReachQ st q p) (hpe : mlookup st.mapTx p = some e)
      (hi : i < e.tx.vout.length) (hedge : mlookup st.mapNextTx ⟨p, i⟩ = some (h, j)) :
      ReachQ st q h

theorem reachq_nil {st : CTxMemPool} {h : Hash} : ¬ ReachQ st [] h := by
  intro hr
  induction hr with
  | base hmem => cases hmem
  | step _ _ _ _ ih => exact ih

theorem reachq_mono_q {st : CTxMemPool} {q q' : List Hash} {h : Hash}
    (hsub : ∀ x ∈ q, x ∈ q') (hr : ReachQ st q h) : ReachQ st q' h := by
  induction hr with
  | base hmem => exact ReachQ.base (hsub _ hmem)
  | step _ hpe hi hedge ih => exact ReachQ.step ih hpe hi hedge

theorem reachq_cons_not_resident {st : CTxMemPool} {h0 : Hash} {queue : List Hash} {h : Hash}
    (hm : mlookup st.mapTx h0 = none) :
    ReachQ st (h0 :: queue) h ↔ h = h0 ∨ ReachQ st queue h := by
  constructor
  · intro hr
    induction hr with
    | base hmem =>
      rcases List.mem_cons.mp hmem with rfl | hq
      · exact Or.inl rfl
      · exact Or.inr (ReachQ.base hq)
    | step hp hpe hi hedge ih =>
      rcases ih with rfl | hq
      · rw [hm] at hpe; cases hpe
      · exact Or.inr (ReachQ.step hq hpe hi hedge)
  · rintro (rfl | hq)
    · exact ReachQ.base (List.mem_cons_self _ _)
    · exact reachq_mono_q (fun x hx => List.mem_cons_of_mem _ hx) hq

theorem mem_childrenOf {m : List (OutPoint × (Hash × Nat))} {h : Hash} {nouts : Nat} {h2 : Hash} :
    h2 ∈ childrenOf m h nouts ↔ ∃ i, i < nouts ∧ ∃ j, mlookup m ⟨h, i⟩ = some (h2, j) := by
  unfold childrenOf
  rw [List.mem_filterMap]
  constructor
  · rintro ⟨i, hi, hmap⟩
    rcases Option.map_eq_some'.mp hmap with ⟨⟨hh, jj⟩, hlk, hfst⟩
    cases hfst
    exact ⟨i, List.mem_range.mp hi, jj, hlk⟩
  · rintro ⟨i, hi, j, hlk⟩
    exact ⟨i, List.mem_range.mpr hi, by rw [hlk]; rfl⟩

theorem mem_of_getElem_some {α : Type} {l : List α} {i : Nat} {t : α}
    (h : l[i]? = some t) : t ∈ l := by
  have hib : i < l.length := by
    by_contra hge
    rw [List.getElem?_eq_none (Nat.le_of_not_lt hge)] at h
    cases h
  rw [List.getElem?_eq_getElem hib] at h
  cases h
  exact List.getElem_mem hib

theorem exists_index_of_mem_vin {l : List TxIn} {t : TxIn} (h : t ∈ l) :
    ∃ i : Nat, l[i]? = some t := by
  obtain ⟨i, hi, hgi⟩ := List.getElem_of_mem h
  exact ⟨i, by rw [List.getElem?_eq_getElem hi, hgi]⟩

theorem reachq_erase_forward {st : CTxMemPool} {h0 : Hash} {queue : List Hash} {h : Hash}
    {e : CTxMemPoolEntry} (hinv : PoolInv st) (hm : mlookup st.mapTx h0 = some e)
    (hr : ReachQ st (h0 :: queue) h) :
    h = h0 ∨ ReachQ (eraseTxStep st h0 e)
      (queue ++ childrenOf st.mapNextTx h0 e.tx.vout.length) h := by
  induction hr with
  | base hmem =>
    rcases List.mem_cons.mp hmem with rfl | hq
    · exact Or.inl rfl
    · exact Or.inr (ReachQ.base (List.mem_append_left _ hq))
  | step hp hpe hi hedge ih =>
    rename_i p ep i hh j
    by_cases hph : p = h0
    · subst hph
      rw [hm] at hpe
      cases hpe
      refine Or.inr (ReachQ.base (List.mem_append_right _ ?_))
      exact mem_childrenOf.mpr ⟨i, hi, j, hedge⟩
    · rcases ih with rfl | hq
      · exact absurd rfl hph
      · by_cases hin : ∀ t ∈ e.tx.vin, t.prevout ≠ (⟨p, i⟩ : OutPoint)
        · refine Or.inr (ReachQ.step (j := j) hq ?_ hi ?_)
          · rw [eraseTxStep_mapTx, mlookup_merase_ne _ hph]
            exact hpe
          · rw [eraseTxStep_mapNextTx, deindexVin_lookup_notmem hin]
            exact hedge
        · push_neg at hin
          obtain ⟨t, ht, hteq⟩ := hin
          obtain ⟨idx, hidx⟩ := exists_index_of_mem_vin ht
          have := hinv.complete hm hidx
          rw [hteq, hedge] at this
          exact Or.inl (congrArg Prod.fst (Option.some_inj.mp this))

theorem reachq_erase_backward {st : CTxMemPool} {h0 : Hash} {queue : List Hash} {h : Hash}
    {e : CTxMemPoolEntry} (hm : mlookup st.mapTx h0 = some e)
    (hr : ReachQ (eraseTxStep st h0 e)
      (queue ++ childrenOf st.mapNextTx h0 e.tx.vout.length) h) :
    ReachQ st (h0 :: queue) h := by
  induction hr with
  | base hmem =>
    rcases List.mem_append.mp hmem with hq | hc
    · exact ReachQ.base (List.mem_cons_of_mem _ hq)
    · obtain ⟨i, hi, j, hlk⟩ := mem_childrenOf.mp hc
      exact ReachQ.step (ReachQ.base (List.mem_cons_self _ _)) hm hi hlk
  | step hp hpe hi hedge ih =>
    rw [eraseTxStep_mapTx] at hpe
    rw [eraseTxStep_mapNextTx] at hedge
    exact ReachQ.step ih (mlookup_merase_sub hpe) hi (deindexVin_sub hedge)

/-- Exactness of the recursive removal loop: starting from a well-formed pool,
the loop empties exactly the worklist-reachable hashes and leaves every other
entry untouched. -/
theorem removeLoop_exact (st : CTxMemPool) (q : List Hash) (rem : List Transaction)
    (hinv : PoolInv st) :
    (∀ h, ReachQ st q h → mlookup (removeLoop true st q rem).1.mapTx h = none)
    ∧ (∀ h, ¬ ReachQ st q h →
        mlookup (removeLoop true st q rem).1.mapTx h = mlookup st.mapTx h) := by
  refine removeLoop.induct true (motive := fun s w r =>
      PoolInv s →
      (∀ h, ReachQ s w h → mlookup (removeLoop true s w r).1.mapTx h = none)
      ∧ (∀ h, ¬ ReachQ s w h →
          mlookup (removeLoop true s w r).1.mapTx h = mlookup s.mapTx h))
    ?_ ?_ ?_ st q rem hinv
  · intro s r _
    rw [removeLoop_nil]
    constructor
    · intro h hr
      exact absurd hr reachq_nil
    · intro h _
      rfl
  · intro s r h0 queue hm ih hi
    have IH := ih hi
    rw [removeLoop_cons_none true s h0 queue r hm]
    constructor
    · intro h hr
      rcases (reachq_cons_not_resident hm).mp hr with rfl | hq
      · by_cases hq0 : ReachQ s queue h
        · exact IH.1 h hq0
        · rw [IH.2 h hq0]
          exact hm
      · exact IH.1 h hq
    · intro h hnr
      have hnq : ¬ ReachQ s queue h :=
        fun hq => hnr (reachq_mono_q (fun x hx => List.mem_cons_of_mem _ hx) hq)
      exact IH.2 h hnq
  · intro s r h0 queue e hm queue2 ih
    intro hi
    have hq2 : queue2 = queue ++ childrenOf s.mapNextTx h0 e.tx.vout.length := rfl
    rw [hq2] at ih
    have hi2 : PoolInv (eraseTxStep s h0 e) := inv_eraseTxStep hi hm
    have IH := ih hi2
    rw [removeLoop_cons_some true s h0 queue r e hm]
    have hc : (if true then childrenOf s.mapNextTx h0 e.tx.vout.length else [])
        = childrenOf s.mapNextTx h0 e.tx.vout.length := rfl
    rw [hc]
    constructor
    · intro h hr
      rcases reachq_erase_forward hi hm hr with rfl | hq
      · by_cases hq0 : ReachQ (eraseTxStep s h e)
            (queue ++ childrenOf s.mapNextTx h e.tx.vout.length) h
        · exact IH.1 h hq0
        · rw [IH.2 h hq0, eraseTxStep_mapTx]
          exact mlookup_merase_self _ _
      · exact IH.1 h hq
    · intro h hnr
      have hneq : h ≠ h0 :=
        fun heq => hnr (heq ▸ ReachQ.base (List.mem_cons_self _ _))
      have hnq : ¬ ReachQ (eraseTxStep s h0 e)
          (queue ++ childrenOf s.mapNextTx h0 e.tx.vout.length) h :=
        fun hq => hnr (reachq_erase_backward hm hq)
      rw [IH.2 h hnq, eraseTxStep_mapTx, mlookup_merase_ne _ hneq]

/-- The hashes that `remove(origTx, recursive := true)` is specified to reach:
`origTx` itself; every pool transaction spending an output of a reached
resident transaction; and, when `origTx` is itself absent from the pool, every
pool transaction spending one of `origTx`'s would-be outputs. -/
inductive DependsOn (st : CTxMemPool) (origTx : Transaction) : Hash → Prop
  | self : DependsOn st origTx origTx.hash
  | spender {p e i h j} (hp : DependsOn st origTx p) (hpe : mlookup st.mapTx p = some e)
      (hi : i < e.tx.vout.length) (hedge : mlookup st.mapNextTx ⟨p, i⟩ = some (h, j)) :
      DependsOn st origTx h
  | orphanSpender {i h j} (habs : mlookup st.mapTx origTx.hash = none)
      (hi : i < origTx.vout.length)
      (hedge : mlookup st.mapNextTx ⟨origTx.hash, i⟩ = some (h, j)) :
      DependsOn st origTx h

theorem dependsOn_iff_reachq_resident {st : CTxMemPool} {origTx : Transaction}
    {e0 : CTxMemPoolEntry} (h0 : mlookup st.mapTx origTx.hash = some e0) (h : Hash) :
    DependsOn st origTx h ↔ ReachQ st [origTx.hash] h := by
  constructor
  · intro hd
    induction hd with
    | self => exact ReachQ.base (List.mem_singleton_self _)
    | spender hp hpe hi hedge ih => exact ReachQ.step ih hpe hi hedge
    | orphanSpender habs hi hedge => rw [h0] at habs; cases habs
  · intro hq
    induction hq with
    | base hmem =>
      rw [List.mem_singleton.mp hmem]
      exact DependsOn.self
    | step hp hpe hi hedge ih => exact DependsOn.spender ih hpe hi hedge

theorem dependsOn_iff_reachq_absent {st : CTxMemPool} {origTx : Transaction}
    (h0 : mlookup st.mapTx origTx.hash = none) (h : Hash) :
    DependsOn st origTx h ↔
      ReachQ st (origTx.hash :: childrenOf st.mapNextTx origTx.hash origTx.vout.length) h := by
  constructor
  · intro hd
    induction hd with
    | self => exact ReachQ.base (List.mem_cons_self _ _)
    | spender hp hpe hi hedge ih => exact ReachQ.step ih hpe hi hedge
    | orphanSpender habs hi hedge =>
      rename_i i hh j
      refine ReachQ.base (List.mem_cons_of_mem _ ?_)
      exact mem_childrenOf.mpr ⟨i, hi, j, hedge⟩
  · intro hq
    induction hq with
    | base hmem =>
      rcases List.mem_cons.mp hmem with rfl | hc
      · exact DependsOn.self
      · obtain ⟨i, hi, j, hlk⟩ := mem_childrenOf.mp hc
        exact DependsOn.orphanSpender h0 hi hlk
    | step hp hpe hi hedge ih => exact DependsOn.spender ih hpe hi hedge

/-- `remove(origTx, true)`, unfolded in the two seeding cases. -/
theorem remove_eq_removeLoop_resident {st : CTxMemPool} {origTx : Transaction}
    {e0 : CTxMemPoolEntry} (h0 : mlookup st.mapTx origTx.hash = some e0) :
    CTxMemPool.remove st origTx true = removeLoop true st [origTx.hash] [] := by
  unfold CTxMemPool.remove
  rw [h0]
  rfl

theorem remove_eq_removeLoop_absent {st : CTxMemPool} {origTx : Transaction}
    (h0 : mlookup st.mapTx origTx.hash = none) :
    CTxMemPool.remove st origTx true
      = removeLoop true st
          (origTx.hash :: childrenOf st.mapNextTx origTx.hash origTx.vout.length) [] := by
  unfold CTxMemPool.remove
  rw [h0]
  rfl

/-- Exactness of `remove(·, recursive := true)` stated against `DependsOn`. -/
theorem remove_recursive_exact (st : CTxMemPool) (origTx : Transaction) (hinv : PoolInv st) :
    (∀ h, DependsOn st origTx h →
        mlookup (CTxMemPool.remove st origTx true).1.mapTx h = none)
    ∧ (∀ h, ¬ DependsOn st origTx h →
        mlookup (CTxMemPool.remove st origTx true).1.mapTx h = mlookup st.mapTx h) := by
  cases h0 : mlookup st.mapTx origTx.hash with
  | none =>
    rw [remove_eq_removeLoop_absent h0]
    have hmain := removeLoop_exact st
      (origTx.hash :: childrenOf st.mapNextTx origTx.hash origTx.vout.length) [] hinv
    constructor
    · intro h hd
      exact hmain.1 h ((dependsOn_iff_reachq_absent h0 h).mp hd)
    · intro h hd
      exact hmain.2 h (fun hq => hd ((dependsOn_iff_reachq_absent h0 h).mpr hq))
  | some e0 =>
    rw [remove_eq_removeLoop_resident h0]
    have hmain := removeLoop_exact st [origTx.hash] [] hinv
    constructor
    · intro h hd
      exact hmain.1 h ((dependsOn_iff_reachq_resident h0 h).mp hd)
    · intro h hd
      exact hmain.2 h (fun hq => hd ((dependsOn_iff_reachq_resident h0 h).mpr hq))

/-! ## Block-confirmation removal: clearing lemmas -/

theorem removeLoop_mapTx_none (f : Bool) (st : CTxMemPool) (q : List Hash)
    (rem : List Transaction) {h : Hash} (hnone : mlookup st.mapTx h = none) :
    mlookup (removeLoop f st q rem).1.mapTx h = none := by
  cases hres : mlookup (removeLoop f st q rem).1.mapTx h with
  | none => rfl
  | some e =>
    have := (removeLoop_frame f st q rem).1 hres
    rw [hnone] at this
    cases this

theorem removeLoop_mapNextTx_none (f : Bool) (st : CTxMemPool) (q : List Hash)
    (rem : List Transaction) {op : OutPoint} (hnone : mlookup st.mapNextTx op = none) :
    mlookup (removeLoop f st q rem).1.mapNextTx op = none := by
  cases hres : mlookup (removeLoop f st q rem).1.mapNextTx op with
  | none => rfl
  | some v =>
    have := (removeLoop_frame f st q rem).2.1 hres
    rw [hnone] at this
    cases this

theorem remove_mapTx_none (st : CTxMemPool) (tx : Transaction) (f : Bool) {h : Hash}
    (hnone : mlookup st.mapTx h = none) :
    mlookup (CTxMemPool.remove st tx f).1.mapTx h = none :=
  removeLoop_mapTx_none f st _ [] hnone

theorem remove_mapNextTx_none (st : CTxMemPool) (tx : Transaction) (f : Bool) {op : OutPoint}
    (hnone : mlookup st.mapNextTx op = none) :
    mlookup (CTxMemPool.remove st tx f).1.mapNextTx op = none :=
  removeLoop_mapNextTx_none f st _ [] hnone

theorem remove_false_eq (st : CTxMemPool) (tx : Transaction) :
    CTxMemPool.remove st tx false = removeLoop false st [tx.hash] [] := rfl

/-- After a non-recursive `remove(tx)`, `tx`'s hash is no longer resident. -/
theorem remove_false_absent (st : CTxMemPool) (tx : Transaction) :
    mlookup (CTxMemPool.remove st tx false).1.mapTx tx.hash = none := by
  rw [remove_false_eq]
  cases hm : mlookup st.mapTx tx.hash with
  | none =>
    rw [removeLoop_cons_none false st tx.hash [] [] hm, removeLoop_nil]
    exact hm
  | some e =>
    rw [removeLoop_cons_some false st tx.hash [] [] e hm]
    have hc : ([] : List Hash) ++ (if false then childrenOf st.mapNextTx tx.hash e.tx.vout.length else []) = [] := rfl
    rw [hc, removeLoop_nil]
    rw [eraseTxStep_mapTx]
    exact mlookup_merase_self _ _

/-- Recursively removing a resident transaction erases all of its own inputs
from the spend index. -/
theorem remove_true_erases_inputs {st : CTxMemPool} {e : CTxMemPoolEntry} {t : Transaction}
    (hres : mlookup st.mapTx t.hash = some e) (het : e.tx = t) :
    ∀ txin ∈ t.vin, mlookup (CTxMemPool.remove st t true).1.mapNextTx txin.prevout = none := by
  intro txin hmem
  rw [remove_eq_removeLoop_resident hres]
  rw [removeLoop_cons_some true st t.hash [] [] e hres]
  apply removeLoop_mapNextTx_none
  rw [eraseTxStep_mapNextTx]
  apply deindexVin_lookup_mem
  rw [het]
  exact hmem

theorem conflictStep_eq_noconf {tx : Transaction} {acc : CTxMemPool × List Transaction}
    {txin : TxIn} (hop : mlookup acc.1.mapNextTx txin.prevout = none) :
    conflictStep tx acc txin = acc := by
  unfold conflictStep
  simp only [hop]

theorem conflictStep_eq_dangling {tx : Transaction} {acc : CTxMemPool × List Transaction}
    {txin : TxIn} {h : Hash} {j : Nat}
    (hop : mlookup acc.1.mapNextTx txin.prevout = some (h, j))
    (hres : mlookup acc.1.mapTx h = none) :
    conflictStep tx acc txin = acc := by
  unfold conflictStep
  simp only [hop, hres]

theorem conflictStep_eq_conflict {tx : Transaction} {acc : CTxMemPool × List Transaction}
    {txin : TxIn} {h : Hash} {j : Nat} {e : CTxMemPoolEntry}
    (hop : mlookup acc.1.mapNextTx txin.prevout = some (h, j))
    (hres : mlookup acc.1.mapTx h = some e) (hneq : e.tx ≠ tx) :
    conflictStep tx acc txin
      = ((CTxMemPool.remove acc.1 e.tx true).1,
         acc.2 ++ (CTxMemPool.remove acc.1 e.tx true).2) := by
  unfold conflictStep
  simp only [hop, hres]
  rw [if_pos hneq]

theorem conflictStep_spec (txin : TxIn) {tx : Transaction} {acc : CTxMemPool × List Transaction}
    (hinv : PoolInv acc.1) (htx : mlookup acc.1.mapTx tx.hash = none) :
    PoolInv (conflictStep tx acc txin).1
    ∧ mlookup (conflictStep tx acc txin).1.mapNextTx txin.prevout = none
    ∧ (∀ {h e}, mlookup (conflictStep tx acc txin).1.mapTx h = some e →
        mlookup acc.1.mapTx h = some e)
    ∧ (∀ {op v}, mlookup (conflictStep tx acc txin).1.mapNextTx op = some v →
        mlookup acc.1.mapNextTx op = some v)
    ∧ (conflictStep tx acc txin).1.mapDeltas = acc.1.mapDeltas := by
  cases hop : mlookup acc.1.mapNextTx txin.prevout with
  | none =>
    rw [conflictStep_eq_noconf hop]
    exact ⟨hinv, hop, fun hl => hl, fun hl => hl, rfl⟩
  | some hj =>
    obtain ⟨h, j⟩ := hj
    obtain ⟨e, he, t, ht, htp⟩ := hinv.sound hop
    have hneq : e.tx ≠ tx := by
      intro heq
      have hkey := hinv.keyOk he
      rw [heq] at hkey
      rw [hkey] at htx
      rw [htx] at he
      cases he
    rw [conflictStep_eq_conflict hop he hneq]
    have hres : mlookup acc.1.mapTx e.tx.hash = some e := by
      rw [hinv.keyOk he]
      exact he
    refine ⟨inv_remove _ _ _ hinv, ?_, ?_, ?_, ?_⟩
    · have hmem : t ∈ e.tx.vin := mem_of_getElem_some ht
      rw [← htp]
      exact remove_true_erases_inputs hres rfl t hmem
    · intro h2 e2 hl
      exact (remove_frame acc.1 e.tx true).1 hl
    · intro op v hl
      exact (remove_frame acc.1 e.tx true).2.1 hl
    · exact (remove_frame acc.1 e.tx true).2.2

theorem conflictFold_spec (tx : Transaction) :
    ∀ (vin : List TxIn) (acc : CTxMemPool × List Transaction),
    PoolInv acc.1 → mlookup acc.1.mapTx tx.hash = none →
    PoolInv (vin.foldl (conflictStep tx) acc).1
    ∧ mlookup (vin.foldl (conflictStep tx) acc).1.mapTx tx.hash = none
    ∧ (∀ txin ∈ vin, mlookup (vin.foldl (conflictStep tx) acc).1.mapNextTx txin.prevout = none)
    ∧ (∀ {h e}, mlookup (vin.foldl (conflictStep tx) acc).1.mapTx h = some e →
        mlookup acc.1.mapTx h = some e)
    ∧ (∀ {op v}, mlookup (vin.foldl (conflictStep tx) acc).1.mapNextTx op = some v →
        mlookup acc.1.mapNextTx op = some v)
    ∧ (vin.foldl (conflictStep tx) acc).1.mapDeltas = acc.1.mapDeltas := by
  intro vin
  induction vin with
  | nil =>
    intro acc hinv htx
    exact ⟨hinv, htx, fun txin h => absurd h (List.not_mem_nil _), fun hl => hl, fun hl => hl, rfl⟩
  | cons txin rest ih =>
    intro acc hinv htx
    have S := conflictStep_spec txin hinv htx
    have htx1 : mlookup (conflictStep tx acc txin).1.mapTx tx.hash = none := by
      cases hc : mlookup (conflictStep tx acc txin).1.mapTx tx.hash with
      | none => rfl
      | some e =>
        have := S.2.2.1 hc
        rw [htx] at this
        cases this
    have T := ih (conflictStep tx acc txin) S.1 htx1
    refine ⟨T.1, T.2.1, ?_, ?_, ?_, ?_⟩
    · intro t ht
      rcases List.mem_cons.mp ht with rfl | ht'
      · cases hc : mlookup ((t :: rest).foldl (conflictStep tx) acc).1.mapNextTx t.prevout with
        | none => rfl
        | some v =>
          have := T.2.2.2.2.1 hc
          rw [S.2.1] at this
          cases this
      · exact T.2.2.1 t ht'
    · intro h e hl
      exact S.2.2.1 (T.2.2.2.1 hl)
    · intro op v hl
      exact S.2.2.2.1 (T.2.2.2.2.1 hl)
    · rw [show ((txin :: rest).foldl (conflictStep tx) acc)
          = rest.foldl (conflictStep tx) (conflictStep tx acc txin) from rfl]
      rw [T.2.2.2.2.2, S.2.2.2.2]

theorem clearPrior_mapTx (s : CTxMemPool) (h : Hash) :
    (CTxMemPool.ClearPrioritisation s h).mapTx = s.mapTx := rfl

theorem clearPrior_mapNextTx (s : CTxMemPool) (h : Hash) :
    (CTxMemPool.ClearPrioritisation s h).mapNextTx = s.mapNextTx := rfl

theorem clearPrior_mapDeltas (s : CTxMemPool) (h : Hash) :
    (CTxMemPool.ClearPrioritisation s h).mapDeltas = merase s.mapDeltas h := rfl

theorem inv_clearPrior {s : CTxMemPool} (h : Hash) (hinv : PoolInv s) :
    PoolInv (CTxMemPool.ClearPrioritisation s h) :=
  ⟨hinv.nodupTx, hinv.nodupNext, hinv.keyOk, hinv.sound, hinv.complete, hinv.sizeEq⟩

theorem blockStep_fst (acc : CTxMemPool × List Transaction) (tx : Transaction) :
    (blockStep acc tx).1
      = CTxMemPool.ClearPrioritisation
          (CTxMemPool.removeConflicts (CTxMemPool.remove acc.1 tx false).1 tx).1 tx.hash := rfl

theorem blockStep_spec (acc : CTxMemPool × List Transaction) (tx : Transaction)
    (hinv : PoolInv acc.1) :
    PoolInv (blockStep acc tx).1
    ∧ mlookup (blockStep acc tx).1.mapTx tx.hash = none
    ∧ (∀ txin ∈ tx.vin, mlookup (blockStep acc tx).1.mapNextTx txin.prevout = none)
    ∧ (∀ {h e}, mlookup (blockStep acc tx).1.mapTx h = some e → mlookup acc.1.mapTx h = some e)
    ∧ (∀ {op v}, mlookup (blockStep acc tx).1.mapNextTx op = some v →
        mlookup acc.1.mapNextTx op = some v)
    ∧ (blockStep acc tx).1.mapDeltas = merase acc.1.mapDeltas tx.hash := by
  have hinv1 : PoolInv (CTxMemPool.remove acc.1 tx false).1 := inv_remove _ _ _ hinv
  have habs1 : mlookup (CTxMemPool.remove acc.1 tx false).1.mapTx tx.hash = none :=
    remove_false_absent acc.1 tx
  have C := conflictFold_spec tx tx.vin ((CTxMemPool.remove acc.1 tx false).1, []) hinv1 habs1
  rw [blockStep_fst]
  refine ⟨inv_clearPrior _ C.1, ?_, ?_, ?_, ?_, ?_⟩
  · rw [clearPrior_mapTx]
    exact C.2.1
  · intro txin hmem
    rw [clearPrior_mapNextTx]
    exact C.2.2.1 txin hmem
  · intro h e hl
    rw [clearPrior_mapTx] at hl
    exact (remove_frame acc.1 tx false).1 (C.2.2.2.1 hl)
  · intro op v hl
    rw [clearPrior_mapNextTx] at hl
    exact (remove_frame acc.1 tx false).2.1 (C.2.2.2.2.1 hl)
  · rw [clearPrior_mapDeltas]
    have hD : (CTxMemPool.removeConflicts (CTxMemPool.remove acc.1 tx false).1 tx).1.mapDeltas
        = (CTxMemPool.remove acc.1 tx false).1.mapDeltas := C.2.2.2.2.2
    rw [hD, (remove_frame acc.1 tx false).2.2]

theorem blockFold_spec :
    ∀ (vtx : List Transaction) (acc : CTxMemPool × List Transaction),
    PoolInv acc.1 →
    PoolInv (vtx.foldl blockStep acc).1
    ∧ (∀ {h e}, mlookup (vtx.foldl blockStep acc).1.mapTx h = some e →
        mlookup acc.1.mapTx h = some e)
    ∧ (∀ {op v}, mlookup (vtx.foldl blockStep acc).1.mapNextTx op = some v →
        mlookup acc.1.mapNextTx op = some v)
    ∧ (∀ tx ∈ vtx, mlookup (vtx.foldl blockStep acc).1.mapTx tx.hash = none)
    ∧ (∀ tx ∈ vtx, ∀ txin ∈ tx.vin,
        mlookup (vtx.foldl blockStep acc).1.mapNextTx txin.prevout = none)
    ∧ (∀ h2, mlookup (vtx.foldl blockStep acc).1.mapDeltas h2
        = if h2 ∈ vtx.map (·.hash) then none else mlookup acc.1.mapDeltas h2) := by
  intro vtx
  induction vtx with
  | nil =>
    intro acc hinv
    refine ⟨hinv, fun hl => hl, fun hl => hl, ?_, ?_, ?_⟩
    · intro tx ht; exact absurd ht (List.not_mem_nil _)
    · intro tx ht; exact absurd ht (List.not_mem_nil _)
    · intro h2; simp
  | cons tx rest ih =>
    intro acc hinv
    have S := blockStep_spec acc tx hinv
    have T := ih (blockStep acc tx) S.1
    have hfold : (tx :: rest).foldl blockStep acc = rest.foldl blockStep (blockStep acc tx) := rfl
    rw [hfold]
    refine ⟨T.1, ?_, ?_, ?_, ?_, ?_⟩
    · intro h e hl
      exact S.2.2.2.1 (T.2.1 hl)
    · intro op v hl
      exact S.2.2.2.2.1 (T.2.2.1 hl)
    · intro t ht
      rcases List.mem_cons.mp ht with rfl | ht'
      · cases hc : mlookup (rest.foldl blockStep (blockStep acc t)).1.mapTx t.hash with
        | none => rfl
        | some e =>
          have := T.2.1 hc
          rw [S.2.1] at this
          cases this
      · exact T.2.2.2.1 t ht'
    · intro t ht txin hmem
      rcases List.mem_cons.mp ht with rfl | ht'
      · cases hc : mlookup (rest.foldl blockStep (blockStep acc t)).1.mapNextTx txin.prevout with
        | none => rfl
        | some v =>
          have := T.2.2.1 hc
          rw [S.2.2.1 txin hmem] at this
          cases this
      · exact T.2.2.2.2.1 t ht' txin hmem
    · intro h2
      rw [T.2.2.2.2.2 h2, S.2.2.2.2.2]
      by_cases hrest : h2 ∈ rest.map (·.hash)
      · rw [if_pos hrest, if_pos (by simp [hrest])]
      · rw [if_neg hrest]
        by_cases hhd : h2 = tx.hash
        · subst hhd
          rw [mlookup_merase_self, if_pos (by simp)]
        · rw [mlookup_merase_ne _ hhd, if_neg (by simp [hrest, hhd])]

/-! ## Prioritisation-delta frame lemmas -/

theorem conflictStep_mapDeltas (tx : Transaction) (acc : CTxMemPool × List Transaction)
    (txin : TxIn) : (conflictStep tx acc txin).1.mapDeltas = acc.1.mapDeltas := by
  cases hop : mlookup acc.1.mapNextTx txin.prevout with
  | none => rw [conflictStep_eq_noconf hop]
  | some hj =>
    obtain ⟨h, j⟩ := hj
    cases hres : mlookup acc.1.mapTx h with
    | none => rw [conflictStep_eq_dangling hop hres]
    | some e =>
      by_cases hneq : e.tx ≠ tx
      · rw [conflictStep_eq_conflict hop hres hneq]
        exact (remove_frame acc.1 e.tx true).2.2
      · have heq : conflictStep tx acc txin = acc := by
          unfold conflictStep
          simp only [hop, hres]
          rw [if_neg hneq]
        rw [heq]

theorem conflictFold_mapDeltas (tx : Transaction) :
    ∀ (vin : List TxIn) (acc : CTxMemPool × List Transaction),
    (vin.foldl (conflictStep tx) acc).1.mapDeltas = acc.1.mapDeltas := by
  intro vin
  induction vin with
  | nil => intro acc; rfl
  | cons txin rest ih =>
    intro acc
    rw [show (txin :: rest).foldl (conflictStep tx) acc
        = rest.foldl (conflictStep tx) (conflictStep tx acc txin) from rfl]
    rw [ih (conflictStep tx acc txin), conflictStep_mapDeltas]

theorem removeConflicts_mapDeltas (st : CTxMemPool) (tx : Transaction) :
    (CTxMemPool.removeConflicts st tx).1.mapDeltas = st.mapDeltas :=
  conflictFold_mapDeltas tx tx.vin (st, [])

theorem blockStep_mapDeltas (acc : CTxMemPool × List Transaction) (tx : Transaction) :
    (blockStep acc tx).1.mapDeltas = merase acc.1.mapDeltas tx.hash := by
  rw [blockStep_fst, clearPrior_mapDeltas, removeConflicts_mapDeltas,
    (remove_frame acc.1 tx false).2.2]

theorem blockFold_mapDeltas :
    ∀ (vtx : List Transaction) (acc : CTxMemPool × List Transaction) (h2 : Hash),
    mlookup (vtx.foldl blockStep acc).1.mapDeltas h2
      = if h2 ∈ vtx.map (·.hash) then none else mlookup acc.1.mapDeltas h2 := by
  intro vtx
  induction vtx with
  | nil => intro acc h2; simp
  | cons tx rest ih =>
    intro acc h2
    rw [show (tx :: rest).foldl blockStep acc = rest.foldl blockStep (blockStep acc tx) from rfl]
    rw [ih (blockStep acc tx) h2, blockStep_mapDeltas]
    by_cases hrest : h2 ∈ rest.map (·.hash)
    · rw [if_pos hrest, if_pos (by simp [hrest])]
    · rw [if_neg hrest]
      by_cases hhd : h2 = tx.hash
      · subst hhd
        rw [mlookup_merase_self, if_pos (by simp)]
      · rw [mlookup_merase_ne _ hhd, if_neg (by simp [hrest, hhd])]

theorem removeForBlock_fst_mapTx (st : CTxMemPool) (vtx : List Transaction) (n : Nat) (f : Bool) :
    (CTxMemPool.removeForBlock st vtx n f).1.mapTx = (vtx.foldl blockStep (st, [])).1.mapTx := rfl

theorem removeForBlock_fst_mapNextTx (st : CTxMemPool) (vtx : List Transaction) (n : Nat)
    (f : Bool) :
    (CTxMemPool.removeForBlock st vtx n f).1.mapNextTx
      = (vtx.foldl blockStep (st, [])).1.mapNextTx := rfl

theorem removeForBlock_fst_mapDeltas (st : CTxMemPool) (vtx : List Transaction) (n : Nat)
    (f : Bool) :
    (CTxMemPool.removeForBlock st vtx n f).1.mapDeltas
      = (vtx.foldl blockStep (st, [])).1.mapDeltas := rfl

theorem removeForBlock_fst_events (st : CTxMemPool) (vtx : List Transaction) (n : Nat)
    (f : Bool) :
    (CTxMemPool.removeForBlock st vtx n f).1.events
      = (vtx.foldl blockStep (st, [])).1.events
        ++ [EstEvent.processBlock n (vtx.filterMap (fun tx => mlookup st.mapTx tx.hash)) f] := rfl

/-! ## Claim theorems: pool engine -/

/-- C1: for every sequence of contract-respecting admissions (`addUnchecked`)
and removals (`remove`), the spend index `mapNextTx` always has exactly one
record per input of each pool-resident entry — its size equals the sum of
input counts over resident entries — and each spend-index key maps to the
resident transaction that declares that outpoint at exactly that input
index. -/
theorem spendIndex_lockstep (st : CTxMemPool) (hr : Reachable st) :
    st.mapNextTx.length = (st.mapTx.map (fun p => p.2.tx.vin.length)).sum
    ∧ ∀ op h i, mlookup st.mapNextTx op = some (h, i) →
        ∃ e, mlookup st.mapTx h = some e ∧
          ∃ txin, e.tx.vin[i]? = some txin ∧ txin.prevout = op := by
  have hinv := inv_of_reachable hr
  exact ⟨hinv.sizeEq, fun op h i hl => hinv.sound hl⟩

/-- Concrete transactions for witnesses: `wtx1` spends a confirmed coin,
`wtx2` spends `wtx1`'s first output, `wtx3` spends `wtx2`'s output. -/
def wtx1 : Transaction := ⟨1, [⟨⟨100, 0⟩⟩], [⟨50, false⟩, ⟨40, false⟩]⟩

def wtx2 : Transaction := ⟨2, [⟨⟨1, 0⟩⟩], [⟨45, false⟩]⟩

def wtx3 : Transaction := ⟨3, [⟨⟨2, 0⟩⟩], [⟨40, false⟩]⟩

def wentry1 : CTxMemPoolEntry := ⟨wtx1, 5, 100, 100, 0, 0, 10, true⟩

def wentry2 : CTxMemPoolEntry := ⟨wtx2, 5, 100, 100, 0, 0, 10, false⟩

def wentry3 : CTxMemPoolEntry := ⟨wtx3, 5, 100, 100, 0, 0, 10, false⟩

/-- The pool after admitting the chain `wtx1`, `wtx2`, `wtx3`. -/
def wpool1 : CTxMemPool := CTxMemPool.addUnchecked emptyPool wtx1.hash wentry1 true

def wpool2 : CTxMemPool := CTxMemPool.addUnchecked wpool1 wtx2.hash wentry2 true

def wpool3 : CTxMemPool := CTxMemPool.addUnchecked wpool2 wtx3.hash wentry3 true

theorem wpool1_reachable : Reachable wpool1 :=
  Reachable.accept emptyPool wentry1 true Reachable.empty (by decide) (by decide) (by decide)

theorem wpool2_reachable : Reachable wpool2 :=
  Reachable.accept wpool1 wentry2 true wpool1_reachable (by decide) (by decide) (by decide)

theorem wpool3_reachable : Reachable wpool3 :=
  Reachable.accept wpool2 wentry3 true wpool2_reachable (by decide) (by decide) (by decide)

/-- C1 witness: the lock-step size equality, concretely on the three-entry
pool. -/
theorem spendIndex_lockstep_witness :
    wpool3.mapNextTx.length = (wpool3.mapTx.map (fun p => p.2.tx.vin.length)).sum :=
  (spendIndex_lockstep wpool3 wpool3_reachable).1

/-- C3: starting from any reachable pool state, `remove(origTx, recursive)`
with `recursive = true` empties exactly `origTx` (if resident) together with
every pool transaction that directly or transitively spends its outputs
(`DependsOn`), and leaves every other entry's residency unchanged; the
`DependsOn` relation also covers the reorg case in which `origTx` is absent
but its would-be outputs are claimed by pool children. -/
theorem remove_recursive_removes_exactly (st : CTxMemPool) (origTx : Transaction)
    (hr : Reachable st) :
    (∀ h, DependsOn st origTx h →
        mlookup (CTxMemPool.remove st origTx true).1.mapTx h = none)
    ∧ (∀ h, ¬ DependsOn st origTx h →
        mlookup (CTxMemPool.remove st origTx true).1.mapTx h = mlookup st.mapTx h) :=
  remove_recursive_exact st origTx (inv_of_reachable hr)

/-- C3 witness: in the concrete chain `wtx1 ← wtx2 ← wtx3`, recursive removal
of `wtx1` also evicts the transitive descendant `wtx3`. -/
theorem remove_recursive_removes_exactly_witness :
    mlookup (CTxMemPool.remove wpool3 wtx1 true).1.mapTx wtx3.hash = none :=
  (remove_recursive_removes_exactly wpool3 wtx1 wpool3_reachable).1 wtx3.hash
    (DependsOn.spender (p := wtx2.hash) (e := wentry2) (i := 0) (j := 0)
      (DependsOn.spender (p := wtx1.hash) (h := wtx2.hash) (e := wentry1) (i := 0) (j := 0)
        DependsOn.self (by decide) (by decide) (by decide))
      (by decide) (by decide) (by decide))

/-- C2: after `removeForBlock(vtx, nBlockHeight, conflicts, fCurrentEstimate)`
on a reachable pool, no confirmed transaction of `vtx` is resident, no
resident transaction spends an outpoint spent by an input of a transaction of
`vtx`, and the estimator is handed exactly the pre-removal entries of the
pool-resident confirmed transactions together with the block height (the
`processBlock` call is the last estimator event). -/
theorem removeForBlock_clears (st : CTxMemPool) (vtx : List Transaction)
    (nBlockHeight : Nat) (fCur : Bool) (hr : Reachable st) :
    (∀ tx ∈ vtx,
        mlookup (CTxMemPool.removeForBlock st vtx nBlockHeight fCur).1.mapTx tx.hash = none)
    ∧ (∀ h e, mlookup (CTxMemPool.removeForBlock st vtx nBlockHeight fCur).1.mapTx h = some e →
        ∀ txin ∈ e.tx.vin, ∀ tx ∈ vtx, ∀ txin2 ∈ tx.vin, txin.prevout ≠ txin2.prevout)
    ∧ (CTxMemPool.removeForBlock st vtx nBlockHeight fCur).1.events.getLast?
        = some (EstEvent.processBlock nBlockHeight
            (vtx.filterMap (fun tx => mlookup st.mapTx tx.hash)) fCur) := by
  have hinv := inv_of_reachable hr
  have F := blockFold_spec vtx (st, []) hinv
  refine ⟨?_, ?_, ?_⟩
  · intro tx htx
    rw [removeForBlock_fst_mapTx]
    exact F.2.2.2.1 tx htx
  · intro h e hl txin hmem tx htx txin2 hmem2 heq
    rw [removeForBlock_fst_mapTx] at hl
    obtain ⟨idx, hidx⟩ := exists_index_of_mem_vin hmem
    have hcom := F.1.complete hl hidx
    have hnone := F.2.2.2.2.1 tx htx txin2 hmem2
    rw [← heq] at hnone
    rw [hcom] at hnone
    cases hnone
  · rw [removeForBlock_fst_events]
    exact List.getLast?_concat _

/-- C2 witness: confirming `wtx1` on the concrete three-entry pool leaves
`wtx1` non-resident. -/
theorem removeForBlock_clears_witness :
    mlookup (CTxMemPool.removeForBlock wpool3 [wtx1] 20 true).1.mapTx wtx1.hash = none :=
  (removeForBlock_clears wpool3 [wtx1] 20 true wpool3_reachable).1 wtx1 (by decide)

/-- C5: a prioritisation delta is untouched by `remove` (any flag) and by
`removeConflicts`, and `removeForBlock` erases exactly the deltas of the
hashes of its confirmed-transaction list. -/
theorem prioritisation_cleared_only_on_confirmation :
    (∀ (st : CTxMemPool) (tx : Transaction) (f : Bool),
        (CTxMemPool.remove st tx f).1.mapDeltas = st.mapDeltas)
    ∧ (∀ (st : CTxMemPool) (tx : Transaction),
        (CTxMemPool.removeConflicts st tx).1.mapDeltas = st.mapDeltas)
    ∧ (∀ (st : CTxMemPool) (vtx : List Transaction) (n : Nat) (f : Bool) (h : Hash),
        mlookup (CTxMemPool.removeForBlock st vtx n f).1.mapDeltas h
          = if h ∈ vtx.map (·.hash) then none else mlookup st.mapDeltas h) := by
  refine ⟨?_, ?_, ?_⟩
  · intro st tx f
    exact (remove_frame st tx f).2.2
  · intro st tx
    exact removeConflicts_mapDeltas st tx
  · intro st vtx n f h
    rw [removeForBlock_fst_mapDeltas]
    exact blockFold_mapDeltas vtx (st, []) h

/-- C10: `clear()` empties the entry map, the spend index and the size total,
increments the updated counter, and leaves the prioritisation map untouched,
so `ApplyDeltas` behaves identically before and after. -/
theorem clear_spares_prioritisation (st : CTxMemPool) :
    (CTxMemPool.clear st).mapTx = []
    ∧ (CTxMemPool.clear st).mapNextTx = []
    ∧ (CTxMemPool.clear st).totalTxSize = 0
    ∧ (CTxMemPool.clear st).nTransactionsUpdated = st.nTransactionsUpdated + 1
    ∧ (CTxMemPool.clear st).mapDeltas = st.mapDeltas
    ∧ ∀ h p f, CTxMemPool.ApplyDeltas (CTxMemPool.clear st) h p f
        = CTxMemPool.ApplyDeltas st h p f :=
  ⟨rfl, rfl, rfl, rfl, rfl, fun h p f => rfl⟩

/-! ## Claim theorem: entry priority -/

/-- C4: for heights within `unsigned int` range with `currentHeight` at or
above the acceptance height (so the unsigned subtraction does not wrap) and a
positive modified size, `GetPriority` computes exactly
`priorityAtAcceptance + (currentHeight - acceptanceHeight) * valueIn / modifiedSize`
with `valueIn = totalOutputValue + fee`. -/
theorem getPriority_formula (e : CTxMemPoolEntry) (currentHeight : Nat)
    (hh : e.nHeight ≤ currentHeight) (hlt : currentHeight < 2 ^ 32)
    (hm : 0 < e.nModSize) :
    e.GetPriority currentHeight
      = e.dPriority + ((currentHeight - e.nHeight : Nat) : ℚ)
          * ((e.tx.GetValueOut + e.nFee : Int) : ℚ) / (e.nModSize : ℚ) := by
  unfold CTxMemPoolEntry.GetPriority
  have hmod : (currentHeight + 2 ^ 32 - e.nHeight) % 2 ^ 32 = currentHeight - e.nHeight := by
    have hrw : currentHeight + 2 ^ 32 - e.nHeight = (currentHeight - e.nHeight) + 2 ^ 32 := by
      omega
    rw [hrw, Nat.add_mod_right, Nat.mod_eq_of_lt (by omega)]
  rw [hmod]

/-- C4 witness: acceptance priority 0, fee 1000, total output value 9000,
modified size 250, evaluated 10 blocks after acceptance, gives
`(10 * 10000) / 250 = 400`. -/
theorem getPriority_formula_witness :
    CTxMemPoolEntry.GetPriority ⟨⟨9, [], [⟨9000, false⟩]⟩, 1000, 250, 250, 0, 0, 100, true⟩ 110
      = 400 := by
  rw [getPriority_formula _ 110 (by decide) (by decide) (by decide)]
  norm_num [Transaction.GetValueOut]

/-! ## Fee estimator persistence (`CBlockAverage`, `ReadFeeEstimates`) -/

/-- `CBlockAverage::AreSane(fee, minRelayFee)`: reject a negative fee rate or
one above `10000 *` the baseline relay fee per kilobyte.  `CFeeRate` is
embedded as its `nSatoshisPerK` scalar. -/
def AreSaneFee (fee : Int) (minRelayPerK : Int) : Bool :=
  if fee < 0 then false
  else if fee > minRelayPerK * 10000 then false
  else true

/-- `CBlockAverage::AreSane(vecFee, minRelayFee)`. -/
def AreSaneFees (vecFee : List Int) (minRelayPerK : Int) : Bool :=
  vecFee.all (fun fee => AreSaneFee fee minRelayPerK)

/-- `CBlockAverage::AreSane(priority)`: `priority >= 0`. -/
def AreSanePriority (priority : ℚ) : Bool :=
  decide (0 ≤ priority)

/-- `CBlockAverage::AreSane(vecPriority)`. -/
def AreSanePriorities (vecPriority : List ℚ) : Bool :=
  vecPriority.all AreSanePriority

/-- One bucketed sample ring (`CBlockAverage`): a fee-rate ring and a priority
ring, each a `boost::circular_buffer` of capacity 100. -/
structure CBlockAverage where
  feeSamples : List Int
  prioritySamples : List ℚ
deriving DecidableEq, Repr

/-- Range insertion at the end of a capacity-`cap` circular buffer: the most
recent `cap` elements survive, older ones are overwritten from the front. -/
def cbInsertEnd {α : Type} (cap : Nat) (cur xs : List α) : List α :=
  let l := cur ++ xs
  l.drop (l.length - cap)

/-- `CBlockAverage::Write(fileout)`: serialize the fee-sample vector followed
by the priority-sample vector. -/
def CBlockAverage.Write (avg : CBlockAverage) : List Int × List ℚ :=
  (avg.feeSamples, avg.prioritySamples)

/-- `CBlockAverage::Read(filein, minRelayFee)`: deserialize the two vectors,
insert them only if sane, and throw (`none`) on the first insane sample
vector. -/
def CBlockAverage.Read (avg : CBlockAverage) (vecFee : List Int) (vecPriority : List ℚ)
    (minRelayPerK : Int) : Option CBlockAverage :=
  if AreSaneFees vecFee minRelayPerK then
    let avg1 : CBlockAverage := { avg with feeSamples := cbInsertEnd 100 avg.feeSamples vecFee }
    if AreSanePriorities vecPriority then
      some { avg1 with prioritySamples := cbInsertEnd 100 avg1.prioritySamples vecPriority }
    else none
  else none

/-- Modelled from the spec: `CBlockPolicyEstimator::Read` is not part of the
given source (only `CBlockAverage::Read` is); per the spec the estimator
state is a collection of bucketed sample rings, each loaded from the stream
via `CBlockAverage::Read` into a fresh ring, and any per-bucket sanity
failure aborts the whole load. -/
def policyRead (buckets : List (List Int × List ℚ)) (minRelayPerK : Int) :
    Option (List CBlockAverage) :=
  match buckets with
  | [] => some []
  | b :: rest =>
    match CBlockAverage.Read ⟨[], []⟩ b.1 b.2 minRelayPerK with
    | none => none
    | some avg =>
      match policyRead rest minRelayPerK with
      | none => none
      | some rs => some (avg :: rs)

/-- The parsed content of a fee-estimates file: the two version words followed
by the bucketed sample rings (spec §6 persisted-file layout). -/
structure EstimateFileData where
  nVersionRequired : Int
  nVersionThatWrote : Int
  buckets : List (List Int × List ℚ)
deriving DecidableEq, Repr

/-- `CTxMemPool::ReadFeeEstimates(filein)`: `none` input models a stream whose
byte-level deserialization throws; otherwise refuse an up-version file, then
load the estimator state, converting any exception into `false`. -/
def ReadFeeEstimates (clientVersion : Int) (minRelayPerK : Int)
    (file : Option EstimateFileData) : Bool :=
  match file with
  | none => false
  | some f =>
    if f.nVersionRequired > clientVersion then false
    else (policyRead f.buckets minRelayPerK).isSome

theorem areSaneFee_eq_true_iff (fee minRelayPerK : Int) :
    AreSaneFee fee minRelayPerK = true ↔ ¬ fee < 0 ∧ ¬ fee > minRelayPerK * 10000 := by
  unfold AreSaneFee
  by_cases h1 : fee < 0
  · simp [h1]
  · by_cases h2 : fee > minRelayPerK * 10000
    · simp [h1, h2]
    · simp [h1, h2]

theorem areSaneFees_eq_false_iff (l : List Int) (minRelayPerK : Int) :
    AreSaneFees l minRelayPerK = false ↔ ∃ fee ∈ l, fee < 0 ∨ fee > minRelayPerK * 10000 := by
  unfold AreSaneFees
  rw [Bool.eq_false_iff]
  rw [ne_eq, List.all_eq_true]
  push_neg
  constructor
  · rintro ⟨fee, hmem, hbad⟩
    refine ⟨fee, hmem, ?_⟩
    by_contra hc
    push_neg at hc
    exact hbad ((areSaneFee_eq_true_iff fee minRelayPerK).mpr ⟨fun h => absurd h hc.1.not_lt.elim, hc.2.not_lt⟩)
  · rintro ⟨fee, hmem, hbad⟩
    refine ⟨fee, hmem, ?_⟩
    intro ht
    rcases (areSaneFee_eq_true_iff fee minRelayPerK).mp ht with ⟨hn, hb⟩
    rcases hbad with hlt | hgt
    · exact hn hlt
    · exact hb hgt

theorem areSanePriorities_eq_false_iff (l : List ℚ) :
    AreSanePriorities l = false ↔ ∃ p ∈ l, p < 0 := by
  unfold AreSanePriorities AreSanePriority
  rw [Bool.eq_false_iff, ne_eq, List.all_eq_true]
  push_neg
  constructor
  · rintro ⟨p, hmem, hbad⟩
    refine ⟨p, hmem, ?_⟩
    simpa using hbad
  · rintro ⟨p, hmem, hbad⟩
    exact ⟨p, hmem, by simpa using hbad⟩

theorem read_eq_none_iff (avg : CBlockAverage) (vf : List Int) (vp : List ℚ) (mrf : Int) :
    CBlockAverage.Read avg vf vp mrf = none ↔
      AreSaneFees vf mrf = false ∨ AreSanePriorities vp = false := by
  unfold CBlockAverage.Read
  by_cases h1 : AreSaneFees vf mrf = true
  · rw [if_pos h1]
    by_cases h2 : AreSanePriorities vp = true
    · rw [if_pos h2]
      refine iff_of_false (by simp) ?_
      rintro (hf | hp)
      · rw [h1] at hf; cases hf
      · rw [h2] at hp; cases hp
    · rw [if_neg h2]
      exact iff_of_true rfl (Or.inr (Bool.eq_false_iff.mpr h2))
  · rw [if_neg h1]
    exact iff_of_true rfl (Or.inl (Bool.eq_false_iff.mpr h1))

theorem policyRead_eq_none_iff (buckets : List (List Int × List ℚ)) (mrf : Int) :
    policyRead buckets mrf = none ↔
      ∃ b ∈ buckets, CBlockAverage.Read ⟨[], []⟩ b.1 b.2 mrf = none := by
  induction buckets with
  | nil => simp [policyRead]
  | cons b rest ih =>
    cases hb : CBlockAverage.Read ⟨[], []⟩ b.1 b.2 mrf with
    | none =>
      have hL : policyRead (b :: rest) mrf = none := by
        simp only [policyRead, hb]
      rw [hL]
      exact iff_of_true rfl ⟨b, List.mem_cons_self _ _, hb⟩
    | some avg =>
      cases hrest : policyRead rest mrf with
      | none =>
        have hL : policyRead (b :: rest) mrf = none := by
          simp only [policyRead, hb, hrest]
        rw [hL]
        refine iff_of_true rfl ?_
        obtain ⟨b2, hmem, hnone⟩ := ih.mp hrest
        exact ⟨b2, List.mem_cons_of_mem _ hmem, hnone⟩
      | some rs =>
        have hL : policyRead (b :: rest) mrf = some (avg :: rs) := by
          simp only [policyRead, hb, hrest]
        rw [hL]
        refine iff_of_false (by simp) ?_
        rintro ⟨b2, hmem, hnone⟩
        rcases List.mem_cons.mp hmem with rfl | hmem'
        · rw [hb] at hnone
          cases hnone
        · have := ih.mpr ⟨b2, hmem', hnone⟩
          rw [hrest] at this
          cases this

/-- C6: loading persisted fee-estimator state fails (returns `false`, never
aborting) exactly when the stream itself errors, or the file's declared
required version exceeds the running client version, or some persisted
fee-rate sample is negative or exceeds `10000 *` the baseline relay fee per
kilobyte, or some persisted priority sample is negative. -/
theorem readFeeEstimates_fails_iff (clientVersion minRelayPerK : Int)
    (file : Option EstimateFileData) :
    ReadFeeEstimates clientVersion minRelayPerK file = false ↔
      (file = none ∨ ∃ f, file = some f ∧
        (f.nVersionRequired > clientVersion ∨
          ∃ b ∈ f.buckets,
            (∃ fee ∈ b.1, fee < 0 ∨ fee > minRelayPerK * 10000) ∨ ∃ p ∈ b.2, p < 0)) := by
  cases file with
  | none => simp [ReadFeeEstimates]
  | some f =>
    simp only [ReadFeeEstimates, Option.some.injEq]
    by_cases hv : f.nVersionRequired > clientVersion
    · rw [if_pos hv]
      refine iff_of_true rfl ?_
      exact Or.inr ⟨f, rfl, Or.inl hv⟩
    · rw [if_neg hv]
      constructor
      · intro hfail
        have hnone : policyRead f.buckets minRelayPerK = none := by
          cases hres : policyRead f.buckets minRelayPerK with
          | none => rfl
          | some rs => rw [hres] at hfail; cases hfail
        obtain ⟨b, hmem, hbad⟩ := (policyRead_eq_none_iff f.buckets minRelayPerK).mp hnone
        rcases (read_eq_none_iff _ _ _ _).mp hbad with hfee | hpri
        · exact Or.inr ⟨f, rfl, Or.inr ⟨b, hmem,
            Or.inl ((areSaneFees_eq_false_iff _ _).mp hfee)⟩⟩
        · exact Or.inr ⟨f, rfl, Or.inr ⟨b, hmem,
            Or.inr ((areSanePriorities_eq_false_iff _).mp hpri)⟩⟩
      · rintro (hcontra | ⟨f2, hf2, hbad⟩)
        · cases hcontra
        · obtain ⟨rfl⟩ : f2 = f := by cases hf2; rfl
          rcases hbad with hver | ⟨b, hmem, hb⟩
          · exact absurd hver hv
          · have hnone : policyRead f.buckets minRelayPerK = none := by
              apply (policyRead_eq_none_iff f.buckets minRelayPerK).mpr
              refine ⟨b, hmem, (read_eq_none_iff _ _ _ _).mpr ?_⟩
              rcases hb with hfee | hpri
              · exact Or.inl ((areSaneFees_eq_false_iff _ _).mpr hfee)
              · exact Or.inr ((areSanePriorities_eq_false_iff _).mpr hpri)
            rw [hnone]
            rfl

theorem cbInsertEnd_nil_of_le {α : Type} (cap : Nat) (xs : List α) (h : xs.length ≤ cap) :
    cbInsertEnd cap [] xs = xs := by
  unfold cbInsertEnd
  simp [Nat.sub_eq_zero_of_le h]

/-- C7: for a bucketed sample ring whose samples are all sane and fit the ring
capacity, `Write` followed by `Read` into an empty ring reproduces the same
fee-sample sequence and priority-sample sequence. -/
theorem blockAverage_roundTrip (avg : CBlockAverage) (minRelayPerK : Int)
    (hf : avg.feeSamples.length ≤ 100) (hp : avg.prioritySamples.length ≤ 100)
    (hsf : AreSaneFees avg.feeSamples minRelayPerK = true)
    (hsp : AreSanePriorities avg.prioritySamples = true) :
    CBlockAverage.Read ⟨[], []⟩ (CBlockAverage.Write avg).1 (CBlockAverage.Write avg).2
      minRelayPerK = some avg := by
  obtain ⟨fs, ps⟩ := avg
  have hf2 : fs.length ≤ 100 := hf
  have hp2 : ps.length ≤ 100 := hp
  have hsf2 : AreSaneFees fs minRelayPerK = true := hsf
  have hsp2 : AreSanePriorities ps = true := hsp
  show CBlockAverage.Read ⟨[], []⟩ fs ps minRelayPerK = some ⟨fs, ps⟩
  unfold CBlockAverage.Read
  rw [if_pos hsf2, if_pos hsp2]
  show some (CBlockAverage.mk (cbInsertEnd 100 [] fs) (cbInsertEnd 100 [] ps))
      = some (CBlockAverage.mk fs ps)
  rw [cbInsertEnd_nil_of_le 100 fs hf2, cbInsertEnd_nil_of_le 100 ps hp2]

/-- C7 witness: a one-sample ring with fee rate 1000 and priority 1, against
a baseline relay fee of 1, round-trips exactly. -/
theorem blockAverage_roundTrip_witness :
    CBlockAverage.Read ⟨[], []⟩ [1000] [1] 1 = some ⟨[1000], [1]⟩ :=
  blockAverage_roundTrip ⟨[1000], [1]⟩ 1 (by decide) (by decide) (by decide) (by decide)

/-! ## The rolling minimum fee (`GetMinFee`) -/

/-- C++ `double` → `int64_t` conversion (`CFeeRate`'s `CAmount` argument):
truncation toward zero. -/
def truncQ (q : ℚ) : Int :=
  if 0 ≤ q then q.floor else q.ceil

/-- The mutable fee-floor state of `CTxMemPool`:
`rollingMinimumFeeRate` (a `double`) and `lastRollingFeeUpdate`. -/
structure MinFeeState where
  rollingMinimumFeeRate : ℚ
  lastRollingFeeUpdate : Int
deriving DecidableEq, Repr

/-- `CTxMemPool::GetMinFee(sizelimit)`.  Explicit-state embedding: `time`
stands for `GetTime()`, `usage` for `DynamicMemoryUsage()`, `halflife` for
`ROLLING_FEE_HALFLIFE` (its numeric value lives in the header, outside the
given source), and `pow2` for the floating-point `pow(2.0, ·)` — the claims
proved below hold for every choice of `pow2`, so no property of floating
`pow` is assumed.  Returns the reported fee rate (as satoshis-per-K) and the
updated state. -/
def GetMinFee (pow2 : ℚ → ℚ) (halflife : ℚ) (usage sizelimit : Nat) (time : Int)
    (minRelayPerK : Int) (st : MinFeeState) : Int × MinFeeState :=
  if st.rollingMinimumFeeRate = 0 then (truncQ st.rollingMinimumFeeRate, st)
  else if time > st.lastRollingFeeUpdate + 10 then
    let hl := if usage < sizelimit / 4 then halflife / 4
      else if usage < sizelimit / 2 then halflife / 2 else halflife
    let rolling := st.rollingMinimumFeeRate
      / pow2 (((time - st.lastRollingFeeUpdate : Int) : ℚ) / hl)
    if rolling < ((minRelayPerK.tdiv 2 : Int) : ℚ) then (0, ⟨0, time⟩)
    else (max (truncQ rolling) minRelayPerK, ⟨rolling, time⟩)
  else (max (truncQ st.rollingMinimumFeeRate) minRelayPerK, st)

theorem truncQ_zero : truncQ 0 = 0 := by
  unfold truncQ
  rw [if_pos le_rfl]
  simp [Rat.floor]

/-- C8: every `GetMinFee` result is either exactly zero or at least the
baseline relay fee (never a non-zero value strictly below baseline); the
stored state is recomputed only when more than 10 seconds have elapsed since
the last update; and once the decayed rolling minimum falls below half the
baseline, the call returns zero and stores a zero floor.  The conjuncts hold
for every abstraction `pow2` of the floating-point decay. -/
theorem getMinFee_floor (pow2 : ℚ → ℚ) (halflife : ℚ) (usage sizelimit : Nat)
    (time : Int) (minRelayPerK : Int) (st : MinFeeState) :
    ((GetMinFee pow2 halflife usage sizelimit time minRelayPerK st).1 = 0
      ∨ minRelayPerK ≤ (GetMinFee pow2 halflife usage sizelimit time minRelayPerK st).1)
    ∧ (¬ time > st.lastRollingFeeUpdate + 10 →
        (GetMinFee pow2 halflife usage sizelimit time minRelayPerK st).2 = st)
    ∧ (st.rollingMinimumFeeRate ≠ 0 → time > st.lastRollingFeeUpdate + 10 →
        st.rollingMinimumFeeRate
            / pow2 (((time - st.lastRollingFeeUpdate : Int) : ℚ)
              / (if usage < sizelimit / 4 then halflife / 4
                 else if usage < sizelimit / 2 then halflife / 2 else halflife))
          < ((minRelayPerK.tdiv 2 : Int) : ℚ) →
        (GetMinFee pow2 halflife usage sizelimit time minRelayPerK st).1 = 0
          ∧ (GetMinFee pow2 halflife usage sizelimit time minRelayPerK st).2.rollingMinimumFeeRate
              = 0) := by
  unfold GetMinFee
  by_cases h0 : st.rollingMinimumFeeRate = 0
  · rw [if_pos h0]
    refine ⟨Or.inl (by rw [h0, truncQ_zero]), fun _ => rfl, fun hne _ _ => absurd h0 hne⟩
  · rw [if_neg h0]
    by_cases ht : time > st.lastRollingFeeUpdate + 10
    · rw [if_pos ht]
      by_cases hsnap : st.rollingMinimumFeeRate
          / pow2 (((time - st.lastRollingFeeUpdate : Int) : ℚ)
            / (if usage < sizelimit / 4 then halflife / 4
               else if usage < sizelimit / 2 then halflife / 2 else halflife))
          < ((minRelayPerK.tdiv 2 : Int) : ℚ)
      · rw [if_pos hsnap]
        exact ⟨Or.inl rfl, fun hcon => absurd ht hcon, fun _ _ _ => ⟨rfl, rfl⟩⟩
      · rw [if_neg hsnap]
        exact ⟨Or.inr (le_max_right _ _), fun hcon => absurd ht hcon,
          fun _ _ hdec => absurd hdec hsnap⟩
    · rw [if_neg ht]
      exact ⟨Or.inr (le_max_right _ _), fun _ => rfl, fun _ htt => absurd htt ht⟩

/-- C8 witness: with the pool at 10% of its size limit, a rolling minimum of
500 against baseline 1000, and 20 seconds elapsed, the decayed value 250 is
below half the baseline, so the call returns zero and zeroes the stored
floor. -/
theorem getMinFee_floor_witness :
    (GetMinFee (fun _ => 2) 100 10 1000 20 1000 ⟨500, 0⟩).1 = 0
      ∧ (GetMinFee (fun _ => 2) 100 10 1000 20 1000 ⟨500, 0⟩).2.rollingMinimumFeeRate = 0 :=
  (getMinFee_floor (fun _ => 2) 100 10 1000 20 1000 ⟨500, 0⟩).2.2
    (by norm_num) (by norm_num)
    (by
      have h2 : Int.tdiv 1000 2 = 500 := by decide
      rw [h2]
      norm_num)

/-! ## Coins-view overlay (`CCoinsViewMemPool`) -/

/-- `CCoins`: the unspent-output record of one transaction — its output list
and the height of the confirming block (or the mempool sentinel). -/
structure CCoins where
  vout : List TxOut
  nHeight : Nat
deriving DecidableEq, Repr

/-- `CCoins(tx, nHeight)`: synthesize a coin record from a transaction body. -/
def CCoins.fromTx (tx : Transaction) (nHeight : Nat) : CCoins :=
  ⟨tx.vout, nHeight⟩

/-- `CCoins::IsPruned()`: every output slot is null (fully spent). -/
def CCoins.IsPruned (c : CCoins) : Bool :=
  c.vout.all (·.isNull)

/-- `CCoinsViewMemPool::GetCoins(txid, coins)`: prefer the pool-resident
transaction, synthesized at the sentinel height; otherwise defer to the
backing store (a function `Hash → Option CCoins`), reporting a pruned result
as not found.  The C++ bool-and-out-parameter calling convention is embedded
as `Option CCoins`. -/
def CCoinsViewMemPool.GetCoins (mempool : CTxMemPool) (base : Hash → Option CCoins)
    (txid : Hash) : Option CCoins :=
  match CTxMemPool.lookup mempool txid with
  | some tx => some (CCoins.fromTx tx MEMPOOL_HEIGHT)
  | none =>
    match base txid with
    | some coins => if coins.IsPruned then none else some coins
    | none => none

/-- `CCoinsViewMemPool::HaveCoins(txid)`. -/
def CCoinsViewMemPool.HaveCoins (mempool : CTxMemPool) (base : Hash → Option CCoins)
    (txid : Hash) : Bool :=
  (mlookup mempool.mapTx txid).isSome || (base txid).isSome

/-- C9: `GetCoins` returns a coin record synthesized from the pool
transaction's body at the sentinel unconfirmed height whenever `txid` is
pool-resident; otherwise it returns the backing store's record, except that a
fully-spent (pruned) record is reported as not found. -/
theorem getCoins_overlay (mempool : CTxMemPool) (base : Hash → Option CCoins) (txid : Hash) :
    (∀ tx, CTxMemPool.lookup mempool txid = some tx →
        CCoinsViewMemPool.GetCoins mempool base txid = some (CCoins.fromTx tx MEMPOOL_HEIGHT))
    ∧ (CTxMemPool.lookup mempool txid = none → ∀ c, base txid = some c →
        c.IsPruned = false → CCoinsViewMemPool.GetCoins mempool base txid = some c)
    ∧ (CTxMemPool.lookup mempool txid = none → ∀ c, base txid = some c →
        c.IsPruned = true → CCoinsViewMemPool.GetCoins mempool base txid = none)
    ∧ (CTxMemPool.lookup mempool txid = none → base txid = none →
        CCoinsViewMemPool.GetCoins mempool base txid = none) := by
  refine ⟨?_, ?_, ?_, ?_⟩
  · intro tx hl
    unfold CCoinsViewMemPool.GetCoins
    rw [hl]
  · intro hl c hb hpr
    unfold CCoinsViewMemPool.GetCoins
    simp [hl, hb, hpr]
  · intro hl c hb hpr
    unfold CCoinsViewMemPool.GetCoins
    simp [hl, hb, hpr]
  · intro hl hb
    unfold CCoinsViewMemPool.GetCoins
    rw [hl, hb]

/-- C9 witness: on the concrete three-entry pool, `GetCoins` for resident
`wtx2` synthesizes its body at the sentinel height even though the backing
store knows nothing about it. -/
theorem getCoins_overlay_witness :
    CCoinsViewMemPool.GetCoins wpool3 (fun _ => none) wtx2.hash
      = some (CCoins.fromTx wtx2 MEMPOOL_HEIGHT) :=
  (getCoins_overlay wpool3 (fun _ => none) wtx2.hash).1 wtx2 (by decide)
